import Mathlib

/-!
# Pack calculator: a shallow embedding of `internal/solver` and of the size parser

The Go function `Solve` is embedded as a Lean function over `Int`.  The Go `int`
is the 64-bit one: `limit := items + maxS - 1` and the length `limit + 1` of the
table are reduced modulo `2^64` by `wrap`, and `make` aborts on a negative
length and on a length beyond what `makeslice` accepts.  Inside the loops every
integer is an index into the allocated table, at most its length, or a pack
count no larger than such an index, so the arithmetic there is exact.  Running out of physical memory below the bound
of `makeslice` is an event of the machine, not of the program, and is not
modelled.  Slices are lists, a slice access outside the bounds is a `Fault`,
and the Go `map[int]int` is an association list with distinct keys.  Loops are
structural recursions over a fuel argument; every caller passes enough fuel,
and running out of it is reported as a `Fault` as well, so that the theorems
below can say that it never happens.
-/

namespace PackCalculator

/-! ## Runtime model -/

/-- Conditions that abort a call instead of returning a value. -/
inductive Fault where
  | indexOutOfRange
  | lenOutOfRange
  | outOfFuel
  deriving DecidableEq, Repr

/-- Entry of the reachability table (`type state struct`). -/
structure state where
  OK : Bool
  Packs : Int
  Prev : Int
  Size : Int
  deriving DecidableEq, Repr

/-- The zero value of `state`, which `make` fills the table with. -/
def state.zero : state := ⟨false, 0, 0, 0⟩

/-- Slice read `xs[i]`. -/
def index {α : Type} (xs : List α) (i : Int) : Except Fault α :=
  if i < 0 then .error .indexOutOfRange
  else
    match xs.get? i.toNat with
    | some x => .ok x
    | none => .error .indexOutOfRange

/-- Slice write `xs[i] = x`. -/
def assign {α : Type} (xs : List α) (i : Int) (x : α) : Except Fault (List α) :=
  if 0 ≤ i ∧ i < xs.length then .ok (xs.set i.toNat x) else .error .indexOutOfRange

/-- The largest `int` of a 64-bit platform, `math.MaxInt`. -/
def MaxInt : Int := 9223372036854775807

/-- Go `int` arithmetic: the exact result of `+` or `-` reduced to 64 bits in
two's complement. -/
def wrap (x : Int) : Int :=
  (x + 9223372036854775808) % 18446744073709551616 - 9223372036854775808

/-- The longest `[]state` that `makeslice` accepts: `maxAlloc` (`2^48` bytes on
64-bit Linux) divided by the 32 bytes of a `state`, that is `2^43` entries. -/
def maxLen : Int := 8796093022208

/-- Allocation `make([]state, n)`: aborts with "makeslice: len out of range" on a
negative length and on one beyond `maxLen`. -/
def make (n : Int) : Except Fault (List state) :=
  if n < 0 ∨ maxLen < n then .error .lenOutOfRange
  else .ok (List.replicate n.toNat state.zero)

/-- A Go `map[int]int`: key/value pairs; a well-formed map has distinct keys. -/
abbrev CountMap := List (Int × Int)

/-- The keys of a map. -/
def CountMap.keys (m : CountMap) : List Int := m.map Prod.fst

/-- Map read `m[k]`, the zero value when the key is absent. -/
def CountMap.get (m : CountMap) (k : Int) : Int := (m.lookup k).getD 0

/-- The statement `m[k]++`. -/
def CountMap.incr : CountMap → Int → CountMap
  | [], k => [(k, 1)]
  | (k', v) :: rest, k =>
    if k' = k then (k', v + 1) :: rest else (k', v) :: CountMap.incr rest k

/-- Library `sort.Ints`: the ascending arrangement of the slice. -/
def sortInts (xs : List Int) : List Int := xs.insertionSort (· ≤ ·)

/-- Library `sort.Sort(sort.Reverse(sort.IntSlice(xs)))`: the descending arrangement. -/
def sortIntsDesc (xs : List Int) : List Int := xs.insertionSort (· ≥ ·)

/-! ## `Solve` -/

def errItems : String := "items must be > 0"
def errEmpty : String := "at least one pack size is required"
def errSize : String := "pack sizes must be positive"
def errNoSolution : String := "no solution found (unexpected with positive sizes)"

/-- The three values `Solve` returns; `counts = none` is the nil map and
`err = none` the nil error. -/
structure SolveResult where
  counts : Option CountMap
  total : Int
  err : Option String
  deriving DecidableEq, Repr

/-- The sanitising loop of `Solve` (lines 27-37): `none` when a size `<= 0` is
met, otherwise the sizes in order of first occurrence. -/
def sanitize : List Int → List Int → List Int → Option (List Int)
  | [], _, sizeBucket => some sizeBucket
  | s :: rest, sizeSet, sizeBucket =>
    if s ≤ 0 then none
    else if s ∈ sizeSet then sanitize rest sizeSet sizeBucket
    else sanitize rest (s :: sizeSet) (sizeBucket ++ [s])

/-- Body of the inner table loop (lines 48-54) at size `s` and total `t`. -/
def fillStep (s t : Int) (dp : List state) : Except Fault (List state) := do
  let a ← index dp (t - s)
  if a.OK then
    let cand := a.Packs + 1
    let b ← index dp t
    if !b.OK || decide (cand < b.Packs) then
      assign dp t ⟨true, cand, t - s, s⟩
    else pure dp
  else pure dp

/-- The loop `for t := s; t <= limit; t++` (line 47), from total `t` on. -/
def fillLoop (s limit : Int) : Nat → Int → List state → Except Fault (List state)
  | 0, t, dp => if t ≤ limit then .error .outOfFuel else .ok dp
  | fuel + 1, t, dp =>
    if t ≤ limit then do
      let dp' ← fillStep s t dp
      fillLoop s limit fuel (t + 1) dp'
    else .ok dp

/-- The loop `for _, s := range sizeBucket` (line 46). -/
def fillAll (limit : Int) : List Int → List state → Except Fault (List state)
  | [], dp => .ok dp
  | s :: rest, dp => do
    let dp' ← fillLoop s limit (limit + 1 - s).toNat s dp
    fillAll limit rest dp'

/-- Body of the selection loop (lines 62-68); `best` is `(bestS, bestP)`. -/
def chooseStep (S : Int) (dp : List state) (best : Int × Int) : Except Fault (Int × Int) := do
  let a ← index dp S
  if !a.OK then pure best
  else if best.1 = -1 ∨ S < best.1 ∨ (S = best.1 ∧ a.Packs < best.2) then pure (S, a.Packs)
  else pure best

/-- The loop `for S := items; S <= limit; S++` (line 61), from total `S` on. -/
def chooseLoop (limit : Int) (dp : List state) : Nat → Int → Int × Int → Except Fault (Int × Int)
  | 0, S, best => if S ≤ limit then .error .outOfFuel else .ok best
  | fuel + 1, S, best =>
    if S ≤ limit then do
      let best' ← chooseStep S dp best
      chooseLoop limit dp fuel (S + 1) best'
    else .ok best

/-- The reconstruction loop `for cur := bestS; cur > 0;` (lines 75-79). -/
def reconstruct (dp : List state) : Nat → Int → CountMap → Except Fault CountMap
  | 0, cur, counts => if cur > 0 then .error .outOfFuel else .ok counts
  | fuel + 1, cur, counts =>
    if cur > 0 then do
      let st ← index dp cur
      reconstruct dp fuel st.Prev (counts.incr st.Size)
    else .ok counts

/-- The table of `Solve` after the double loop (lines 43-56); the length
`limit+1` is computed in `int`. -/
def buildTable (limit : Int) (sizeBucket : List Int) : Except Fault (List state) := do
  let dp ← make (wrap (limit + 1))
  let dp ← assign dp 0 ⟨true, 0, -1, 0⟩
  fillAll limit sizeBucket dp

/-- The part of `Solve` after `sort.Ints(sizeBucket)` (lines 40-81). -/
def solveSorted (items : Int) (sizeBucket : List Int) : Except Fault SolveResult := do
  let maxS ← index sizeBucket ((sizeBucket.length : Int) - 1)
  let limit := wrap (items + maxS - 1)
  let dp ← buildTable limit sizeBucket
  let best ← chooseLoop limit dp (limit + 1 - items).toNat items (-1, 0)
  if best.1 = -1 then pure ⟨none, 0, some errNoSolution⟩
  else do
    let counts ← reconstruct dp best.1.toNat best.1 []
    pure ⟨some counts, best.1, none⟩

/-- The function `Solve(items, sizes)`. -/
def Solve (items : Int) (sizes : List Int) : Except Fault SolveResult :=
  if items ≤ 0 then .ok ⟨none, 0, some errItems⟩
  else if sizes.length = 0 then .ok ⟨none, 0, some errEmpty⟩
  else
    match sanitize sizes [] [] with
    | none => .ok ⟨none, 0, some errSize⟩
    | some bucket => solveSorted items (sortInts bucket)

/-- Equality of two outcomes of `Solve` is decidable. -/
instance : DecidableEq (Except Fault SolveResult) := fun a b =>
  match a, b with
  | .ok x, .ok y =>
    if h : x = y then isTrue (by rw [h]) else isFalse (fun e => h (Except.ok.inj e))
  | .error x, .error y =>
    if h : x = y then isTrue (by rw [h]) else isFalse (fun e => h (Except.error.inj e))
  | .ok _, .error _ => isFalse (fun e => by cases e)
  | .error _, .ok _ => isFalse (fun e => by cases e)

/-- The function `SortedDescKeys(m)`: the keys, then sorted descending. -/
def SortedDescKeys (m : CountMap) : List Int := sortIntsDesc m.keys

/-! ## Specification vocabulary -/

/-- Total reading of a table entry, used to state the invariants. -/
def rd (dp : List state) (i : Int) : state := (dp.get? i.toNat).getD state.zero

/-- A pack list over the catalog `S`: every element is one of the sizes. -/
def Over (S : List Int) (l : List Int) : Prop := ∀ x ∈ l, x ∈ S

/-- Table invariant inside the inner loop at size `s`, before total `t` is treated:
back-pointers are sound for the sizes `s :: S`, and the table is optimal for every
pack list over `s :: S` whose total is below `t` or that does not use `s`. -/
structure Mid (S : List Int) (s limit t : Int) (dp : List state) : Prop where
  len : (dp.length : Int) = limit + 1
  zeroOK : (rd dp 0).OK = true
  zeroPacks : (rd dp 0).Packs = 0
  back : ∀ u, 0 < u → u ≤ limit → (rd dp u).OK = true →
    (rd dp u).Size ∈ s :: S ∧ 0 < (rd dp u).Size ∧ (rd dp u).Size ≤ u ∧
    (rd dp u).Prev = u - (rd dp u).Size ∧ (rd dp (rd dp u).Prev).OK = true ∧
    (rd dp (rd dp u).Prev).Packs + 1 ≤ (rd dp u).Packs
  opt : ∀ l : List Int, Over (s :: S) l → l.sum ≤ limit → (l.sum < t ∨ s ∉ l) →
    (rd dp l.sum).OK = true ∧ (rd dp l.sum).Packs ≤ l.length

/-- Table invariant between two sizes: back-pointers are sound and the table is
optimal for every pack list over the sizes `S` treated so far. -/
structure Inv (S : List Int) (limit : Int) (dp : List state) : Prop where
  len : (dp.length : Int) = limit + 1
  zeroOK : (rd dp 0).OK = true
  zeroPacks : (rd dp 0).Packs = 0
  back : ∀ u, 0 < u → u ≤ limit → (rd dp u).OK = true →
    (rd dp u).Size ∈ S ∧ 0 < (rd dp u).Size ∧ (rd dp u).Size ≤ u ∧
    (rd dp u).Prev = u - (rd dp u).Size ∧ (rd dp (rd dp u).Prev).OK = true ∧
    (rd dp (rd dp u).Prev).Packs + 1 ≤ (rd dp u).Packs
  opt : ∀ l : List Int, Over S l → l.sum ≤ limit →
    (rd dp l.sum).OK = true ∧ (rd dp l.sum).Packs ≤ l.length

/-- What the selection loop returns when started at total `S` with nothing chosen:
either `-1` and no total from `S` to `limit` is marked, or the first marked total. -/
def FirstHit (limit : Int) (dp : List state) (S : Int) (best : Int × Int) : Prop :=
  (best.1 = -1 ∧ ∀ u, S ≤ u → u ≤ limit → (rd dp u).OK = false) ∨
  (S ≤ best.1 ∧ best.1 ≤ limit ∧ (rd dp best.1).OK = true ∧
    best.2 = (rd dp best.1).Packs ∧ ∀ u, S ≤ u → u < best.1 → (rd dp u).OK = false)

/-- The shipped quantity a map stands for: the sum of `size * count`. -/
def CountMap.total (m : CountMap) : Int := (m.map (fun p => p.1 * p.2)).sum

/-- The number of packs a map stands for: the sum of the counts. -/
def CountMap.packs (m : CountMap) : Int := (m.map Prod.snd).sum

/-- The rendering loop of `calcHandler` (lines 120-123): one `(Size, Qty)` pair
per key, in the order of `SortedDescKeys(counts)`. -/
def renderPacks (counts : CountMap) : List (Int × Int) :=
  (SortedDescKeys counts).map (fun s => (s, counts.get s))

/-! ## The size parser of the request adapter (`cmd/server/main.go`) -/

/-- White space in the sense of `unicode.IsSpace`, which `strings.TrimSpace` strips. -/
def isSpace (c : Char) : Bool :=
  let n := c.toNat
  n = 9 || n = 10 || n = 11 || n = 12 || n = 13 || n = 32 || n = 0x85 || n = 0xA0 ||
    n = 0x1680 || (0x2000 ≤ n && n ≤ 0x200A) || n = 0x2028 || n = 0x2029 || n = 0x202F ||
    n = 0x205F || n = 0x3000

/-- Library `strings.TrimSpace`: leading and trailing white space removed. -/
def TrimSpace (s : List Char) : List Char :=
  ((s.dropWhile isSpace).reverse.dropWhile isSpace).reverse

/-- Library `strings.Split(s, ",")`: the fields between the commas, one more
than there are commas. -/
def Split : List Char → List (List Char)
  | [] => [[]]
  | c :: rest =>
    if c = ',' then [] :: Split rest
    else
      match Split rest with
      | [] => [[c]]
      | p :: ps => (c :: p) :: ps

/-- Value of a run of decimal digits, `none` when another character is met. -/
def digits (acc : Nat) : List Char → Option Nat
  | [] => some acc
  | c :: cs => if c.isDigit then digits (acc * 10 + (c.toNat - 48)) cs else none

/-- Library `strconv.Atoi`: an optional sign, then at least one decimal digit,
the value within 64 bits; `none` stands for its error. -/
def Atoi (s : List Char) : Option Int :=
  let body (neg : Bool) (ds : List Char) : Option Int :=
    if ds = [] then none
    else
      match digits 0 ds with
      | none => none
      | some n =>
        let v : Int := if neg then -(n : Int) else (n : Int)
        if -(2 : Int) ^ 63 ≤ v ∧ v < (2 : Int) ^ 63 then some v else none
  match s with
  | '-' :: ds => body true ds
  | '+' :: ds => body false ds
  | ds => body false ds

/-- The errors of the parser: "PACK_SIZES is empty; ...", "sizes string empty"
and "invalid size: %q" with the offending field. -/
inductive ParseError where
  | envEmpty
  | empty
  | invalidSize (p : List Char)
  deriving DecidableEq, Repr

/-- The loop of `parseSizesCSV` over the fields (lines 45-55). -/
def parseParts : List (List Char) → List Int → Except ParseError (List Int)
  | [], out => .ok out
  | p :: rest, out =>
    let p := TrimSpace p
    if p = [] then parseParts rest out
    else
      match Atoi p with
      | none => .error (.invalidSize p)
      | some v => if v ≤ 0 then .error (.invalidSize p) else parseParts rest (out ++ [v])

/-- The function `parseSizesCSV(csv)`. -/
def parseSizesCSV (csv : String) : Except ParseError (List Int) :=
  if TrimSpace csv.toList = [] then .error .empty
  else parseParts (Split csv.toList) []

/-- The function `parseSizesFromEnv()`, with the value of `PACK_SIZES` as argument. -/
def parseSizesFromEnv (raw : String) : Except ParseError (List Int) :=
  if raw = "" then .error .envEmpty else parseSizesCSV raw

/-- Two association lists that stand for the same Go map: distinct keys, the
same keys as `e`, and the same value at each key. -/
def CountMap.Same (m e : CountMap) : Prop :=
  m.keys.Nodup ∧ (∀ k, k ∈ m.keys ↔ k ∈ e.keys) ∧ ∀ k, m.get k = e.get k

/-! ## Vocabulary for the loops of `Solve` -/

/-- The scan the spec describes: stop at the first total `S >= items` that the
table marks, `-1` when the range holds none. -/
def firstHitScan (limit : Int) (dp : List state) : Nat → Int → Except Fault (Int × Int)
  | 0, S => if S ≤ limit then .error .outOfFuel else .ok (-1, 0)
  | fuel + 1, S =>
    if S ≤ limit then do
      let a ← index dp S
      if a.OK then pure (S, a.Packs) else firstHitScan limit dp fuel (S + 1)
    else .ok (-1, 0)

/-- The iterations of the selection loop: each total `S` it visits, paired with
the `(bestS, bestP)` it holds when the body starts. -/
def chooseStates (limit : Int) (dp : List state) :
    Nat → Int → Int × Int → List (Int × (Int × Int))
  | 0, _, _ => []
  | fuel + 1, S, best =>
    if S ≤ limit then
      match chooseStep S dp best with
      | .ok best' => (S, best) :: chooseStates limit dp fuel (S + 1) best'
      | .error _ => [(S, best)]
    else []

/-- The iterations of the reconstruction loop: the values of `cur` with which
the body runs, following `Prev` from `cur`. -/
def walk (dp : List state) : Nat → Int → List Int
  | 0, _ => []
  | fuel + 1, cur => if cur > 0 then cur :: walk dp fuel (rd dp cur).Prev else []

/-- The pack sizes the reconstruction loop counts, in the order it meets them. -/
def packsOf (dp : List state) (fuel : Nat) (cur : Int) : List Int :=
  (walk dp fuel cur).map (fun u => (rd dp u).Size)

/-- The intermediate values of a call of `Solve` that has passed validation,
built its table and run the selection loop: the sorted catalog, its largest
size, the table and the selection `(bestS, bestP)`. -/
structure Reach (items : Int) (sizes sizeBucket : List Int) (maxS : Int) (dp : List state)
    (best : Int × Int) : Prop where
  bucket : ∃ b, sanitize sizes [] [] = some b ∧ sizeBucket = sortInts b
  top : index sizeBucket ((sizeBucket.length : Int) - 1) = .ok maxS
  table : buildTable (wrap (items + maxS - 1)) sizeBucket = .ok dp
  choice : chooseLoop (wrap (items + maxS - 1)) dp
    (wrap (items + maxS - 1) + 1 - items).toNat items (-1, 0) = .ok best

/-- Tie-break facts of the table inside the inner loop at size `s`, before total
`t` is treated: a marked total has a pack list of at most `Packs` packs in which
`Size` occurs and is the largest pack; and every pack list of at most `Packs`
packs for it, when the total is below `t` or the list does not use `s`, holds a
pack at least as large as `Size`. -/
structure TieMid (S : List Int) (s limit t : Int) (dp : List state) : Prop where
  wit : ∀ u, 0 < u → u ≤ limit → (rd dp u).OK = true →
    ∃ l : List Int, Over (s :: S) l ∧ l.sum = u ∧ (l.length : Int) ≤ (rd dp u).Packs ∧
      (rd dp u).Size ∈ l ∧ ∀ x ∈ l, x ≤ (rd dp u).Size
  low : ∀ u, 0 < u → u ≤ limit → (rd dp u).OK = true → ∀ l : List Int, Over (s :: S) l →
    l.sum = u → (l.length : Int) ≤ (rd dp u).Packs → (u < t ∨ s ∉ l) →
    ∃ x ∈ l, (rd dp u).Size ≤ x

/-- Tie-break facts of the table between two sizes: `Size` is the largest pack of
some pack list with at most `Packs` packs, and no such list has a smaller
largest pack. -/
structure Tie (S : List Int) (limit : Int) (dp : List state) : Prop where
  wit : ∀ u, 0 < u → u ≤ limit → (rd dp u).OK = true →
    ∃ l : List Int, Over S l ∧ l.sum = u ∧ (l.length : Int) ≤ (rd dp u).Packs ∧
      (rd dp u).Size ∈ l ∧ ∀ x ∈ l, x ≤ (rd dp u).Size
  low : ∀ u, 0 < u → u ≤ limit → (rd dp u).OK = true → ∀ l : List Int, Over S l →
    l.sum = u → (l.length : Int) ≤ (rd dp u).Packs → ∃ x ∈ l, (rd dp u).Size ≤ x

/-! # Theorems -/

/-! ## Slice access -/

theorem index_ok {α : Type} (xs : List α) (i : Int) (h0 : 0 ≤ i) (h1 : i < xs.length) :
    ∃ x, xs.get? i.toNat = some x ∧ index xs i = .ok x := by
  have hlt : i.toNat < xs.length := by omega
  refine ⟨xs.get ⟨i.toNat, hlt⟩, List.get?_eq_get hlt, ?_⟩
  unfold index
  rw [if_neg (by omega), List.get?_eq_get hlt]

theorem index_rd (dp : List state) (i : Int) (h0 : 0 ≤ i) (h1 : i < dp.length) :
    index dp i = .ok (rd dp i) := by
  obtain ⟨x, hx, hi⟩ := index_ok dp i h0 h1
  rw [hi, rd, hx]; rfl

theorem assign_ok {α : Type} (xs : List α) (i : Int) (x : α) (h0 : 0 ≤ i)
    (h1 : i < xs.length) : assign xs i x = .ok (xs.set i.toNat x) := by
  unfold assign
  rw [if_pos ⟨h0, h1⟩]

theorem rd_set_eq (dp : List state) (i : Int) (x : state) (h0 : 0 ≤ i)
    (h1 : i < dp.length) : rd (dp.set i.toNat x) i = x := by
  have hlt : i.toNat < dp.length := by omega
  simp [rd, List.getElem?_set, hlt]

theorem rd_set_ne (dp : List state) (i j : Int) (x : state) (h0 : 0 ≤ i) (hj : 0 ≤ j)
    (hne : i ≠ j) : rd (dp.set i.toNat x) j = rd dp j := by
  have : i.toNat ≠ j.toNat := by omega
  simp [rd, List.getElem?_set, this]

theorem rd_replicate (n : Nat) (i : Int) : rd (List.replicate n state.zero) i = state.zero := by
  unfold rd
  by_cases h : i.toNat < n
  · simp [List.getElem?_replicate, h]
  · simp [List.getElem?_replicate, h]

/-! ## Pack lists -/

theorem le_sum_of_mem {l : List Int} (hpos : ∀ x ∈ l, 0 < x) {x : Int} (hx : x ∈ l) :
    x ≤ l.sum :=
  List.single_le_sum (fun y hy => (hpos y hy).le) x hx

theorem sum_nonneg_of_pos {l : List Int} (hpos : ∀ x ∈ l, 0 < x) : 0 ≤ l.sum :=
  List.sum_nonneg (fun y hy => (hpos y hy).le)

theorem Over.pos {S l : List Int} (hS : ∀ x ∈ S, 0 < x) (h : Over S l) : ∀ x ∈ l, 0 < x :=
  fun x hx => hS x (h x hx)

/-! ## The inner loop keeps the table invariant -/

theorem Inv.toMid {S : List Int} {s limit : Int} {dp : List state}
    (hS : ∀ x ∈ s :: S, 0 < x) (h : Inv S limit dp) : Mid S s limit s dp where
  len := h.len
  zeroOK := h.zeroOK
  zeroPacks := h.zeroPacks
  back := fun u h0 h1 hok => by
    obtain ⟨a, b⟩ := h.back u h0 h1 hok
    exact ⟨List.mem_cons_of_mem _ a, b⟩
  opt := fun l hl hsum hc => by
    have hns : s ∉ l := by
      rcases hc with hc | hc
      · intro hmem
        have := le_sum_of_mem (Over.pos hS hl) hmem
        omega
      · exact hc
    refine h.opt l (fun x hx => ?_) hsum
    rcases List.mem_cons.1 (hl x hx) with rfl | hx'
    · exact absurd hx hns
    · exact hx'

theorem Mid.toInv {S : List Int} {s limit t : Int} {dp : List state}
    (ht : limit < t) (h : Mid S s limit t dp) : Inv (s :: S) limit dp where
  len := h.len
  zeroOK := h.zeroOK
  zeroPacks := h.zeroPacks
  back := h.back
  opt := fun l hl hsum => h.opt l hl hsum (Or.inl (by omega))

/-- A pack list that uses `s` and totals `t` gives, once `s` is taken out, a
pack list for `t - s`, which the invariant already covers. -/
theorem Mid.pred {S : List Int} {s limit t : Int} {dp : List state}
    (hS : ∀ x ∈ s :: S, 0 < x) (h : Mid S s limit t dp) (htl : t ≤ limit)
    {l : List Int} (hl : Over (s :: S) l) (hs : s ∈ l) (hsum : l.sum = t) :
    (rd dp (t - s)).OK = true ∧ (rd dp (t - s)).Packs + 1 ≤ l.length := by
  have hspos : 0 < s := hS s (List.mem_cons_self _ _)
  have hsumE : s + (l.erase s).sum = l.sum := List.sum_erase hs
  have hlenE : (l.erase s).length = l.length - 1 := List.length_erase_of_mem hs
  have hlpos : 0 < l.length := List.length_pos_of_mem hs
  have hov : Over (s :: S) (l.erase s) := fun x hx => hl x (List.mem_of_mem_erase hx)
  have := h.opt (l.erase s) hov (by omega) (Or.inl (by omega))
  have e : (l.erase s).sum = t - s := by omega
  rw [e] at this
  refine ⟨this.1, ?_⟩
  have h2 := this.2
  rw [hlenE] at h2
  omega

theorem Mid.keep {S : List Int} {s limit t : Int} {dp : List state}
    (h : Mid S s limit t dp)
    (F : ∀ l : List Int, Over (s :: S) l → s ∈ l → l.sum = t →
      (rd dp t).OK = true ∧ (rd dp t).Packs ≤ l.length) :
    Mid S s limit (t + 1) dp where
  len := h.len
  zeroOK := h.zeroOK
  zeroPacks := h.zeroPacks
  back := h.back
  opt := fun l hl hsum hc => by
    by_cases hs : s ∈ l
    · by_cases ht : l.sum = t
      · have := F l hl hs ht
        rw [ht]; exact this
      · exact h.opt l hl hsum (Or.inl (by rcases hc with hc | hc; omega; exact absurd hs hc))
    · exact h.opt l hl hsum (Or.inr hs)

theorem Mid.write {S : List Int} {s limit t : Int} {dp : List state}
    (hS : ∀ x ∈ s :: S, 0 < x) (h : Mid S s limit t dp) (hst : s ≤ t) (htl : t ≤ limit)
    (hok : (rd dp (t - s)).OK = true)
    (hc : (rd dp t).OK = true → (rd dp (t - s)).Packs + 1 < (rd dp t).Packs) :
    Mid S s limit (t + 1)
      (dp.set t.toNat ⟨true, (rd dp (t - s)).Packs + 1, t - s, s⟩) := by
  have hspos : 0 < s := hS s (List.mem_cons_self _ _)
  have hlen := h.len
  have ht0 : 0 ≤ t := by omega
  have htlen : t < dp.length := by omega
  have hne : ∀ u : Int, 0 ≤ u → u ≠ t →
      rd (dp.set t.toNat ⟨true, (rd dp (t - s)).Packs + 1, t - s, s⟩) u = rd dp u :=
    fun u hu hut => rd_set_ne dp t u _ ht0 hu (Ne.symm hut)
  have heq : rd (dp.set t.toNat ⟨true, (rd dp (t - s)).Packs + 1, t - s, s⟩) t =
      ⟨true, (rd dp (t - s)).Packs + 1, t - s, s⟩ := rd_set_eq dp t _ ht0 htlen
  refine ⟨?_, ?_, ?_, ?_, ?_⟩
  · rw [List.length_set]; exact hlen
  · rw [hne 0 le_rfl (by omega)]; exact h.zeroOK
  · rw [hne 0 le_rfl (by omega)]; exact h.zeroPacks
  · intro u hu0 hul huok
    by_cases hut : u = t
    · subst hut
      rw [heq]
      simp only
      rw [hne (u - s) (by omega) (by omega)]
      exact ⟨List.mem_cons_self _ _, hspos, hst, trivial, hok, le_rfl⟩
    · rw [hne u hu0.le hut] at huok ⊢
      obtain ⟨b1, b2, b3, b4, b5, b6⟩ := h.back u hu0 hul huok
      refine ⟨b1, b2, b3, b4, ?_⟩
      by_cases hp : (rd dp u).Prev = t
      · rw [hp, heq]
        rw [hp] at b5 b6
        have := hc b5
        simp only [true_and]
        omega
      · rw [hne _ (by omega) hp]
        exact ⟨b5, b6⟩
  · intro l hl hsum hcase
    have hnn : 0 ≤ l.sum := sum_nonneg_of_pos (Over.pos hS hl)
    by_cases hlt : l.sum = t
    · rw [hlt, heq]
      simp only [true_and]
      by_cases hs : s ∈ l
      · exact (h.pred hS htl hl hs hlt).2
      · have := h.opt l hl hsum (Or.inr hs)
        rw [hlt] at this
        have := hc this.1
        omega
    · rw [hne _ hnn hlt]
      refine h.opt l hl hsum ?_
      rcases hcase with hcase | hcase
      · left; omega
      · right; exact hcase

theorem fillStep_spec {S : List Int} {s limit t : Int} {dp : List state}
    (hS : ∀ x ∈ s :: S, 0 < x) (h : Mid S s limit t dp) (hst : s ≤ t) (htl : t ≤ limit) :
    ∃ dp', fillStep s t dp = .ok dp' ∧ Mid S s limit (t + 1) dp' := by
  have hspos : 0 < s := hS s (List.mem_cons_self _ _)
  have hlen := h.len
  have i1 : index dp (t - s) = .ok (rd dp (t - s)) := index_rd dp _ (by omega) (by omega)
  have i2 : index dp t = .ok (rd dp t) := index_rd dp _ (by omega) (by omega)
  unfold fillStep
  rw [i1]
  simp only [bind, Except.bind, pure, Except.pure]
  by_cases hok : (rd dp (t - s)).OK = true
  · rw [if_pos hok, i2]
    simp only
    by_cases hw : (!(rd dp t).OK || decide ((rd dp (t - s)).Packs + 1 < (rd dp t).Packs)) = true
    · rw [if_pos hw, assign_ok dp t _ (by omega) (by omega)]
      refine ⟨_, rfl, h.write hS hst htl hok ?_⟩
      intro htok
      simpa [htok] using hw
    · rw [if_neg hw]
      refine ⟨_, rfl, h.keep ?_⟩
      intro l hl hs hsum
      have hp := h.pred hS htl hl hs hsum
      simp only [Bool.or_eq_true, Bool.not_eq_true', decide_eq_true_eq, not_or,
        Bool.not_eq_false, not_lt] at hw
      exact ⟨hw.1, by omega⟩
  · rw [if_neg hok]
    refine ⟨_, rfl, h.keep ?_⟩
    intro l hl hs hsum
    exact absurd (h.pred hS htl hl hs hsum).1 hok

theorem fillLoop_spec {S : List Int} {s limit : Int} (hS : ∀ x ∈ s :: S, 0 < x) :
    ∀ (fuel : Nat) (t : Int) (dp : List state), Mid S s limit t dp → s ≤ t →
      (limit + 1 - t).toNat ≤ fuel →
      ∃ dp', fillLoop s limit fuel t dp = .ok dp' ∧ Inv (s :: S) limit dp' := by
  intro fuel
  induction fuel with
  | zero =>
    intro t dp h _ hf
    have ht : limit < t := by omega
    refine ⟨dp, ?_, h.toInv ht⟩
    unfold fillLoop
    rw [if_neg (by omega)]
  | succ n ih =>
    intro t dp h hst hf
    unfold fillLoop
    by_cases htl : t ≤ limit
    · rw [if_pos htl]
      obtain ⟨dp1, e1, h1⟩ := fillStep_spec hS h hst htl
      rw [e1]
      simp only [bind, Except.bind]
      exact ih (t + 1) dp1 h1 (by omega) (by omega)
    · rw [if_neg htl]
      exact ⟨dp, rfl, h.toInv (by omega)⟩

theorem fillAll_spec {limit : Int} :
    ∀ (sizes S : List Int) (dp : List state), (∀ x ∈ sizes, 0 < x) → (∀ x ∈ S, 0 < x) →
      Inv S limit dp →
      ∃ dp', fillAll limit sizes dp = .ok dp' ∧ Inv (sizes.reverse ++ S) limit dp' := by
  intro sizes
  induction sizes with
  | nil =>
    intro S dp _ _ h
    exact ⟨dp, rfl, by simpa using h⟩
  | cons s rest ih =>
    intro S dp hsz hS h
    have hS1 : ∀ x ∈ s :: S, 0 < x := by
      intro x hx
      rcases List.mem_cons.1 hx with rfl | hx
      · exact hsz _ (List.mem_cons_self _ _)
      · exact hS x hx
    obtain ⟨dp1, e1, h1⟩ :=
      fillLoop_spec hS1 (limit + 1 - s).toNat s dp (h.toMid hS1) le_rfl le_rfl
    obtain ⟨dp2, e2, h2⟩ :=
      ih (s :: S) dp1 (fun x hx => hsz x (List.mem_cons_of_mem _ hx)) hS1 h1
    unfold fillAll
    rw [e1]
    simp only [bind, Except.bind]
    refine ⟨dp2, e2, ?_⟩
    simpa [List.reverse_cons, List.append_assoc] using h2

theorem Inv.congr {S S' : List Int} {limit : Int} {dp : List state}
    (h : Inv S limit dp) (hSS : ∀ x, x ∈ S ↔ x ∈ S') : Inv S' limit dp where
  len := h.len
  zeroOK := h.zeroOK
  zeroPacks := h.zeroPacks
  back := fun u h0 h1 hok => by
    obtain ⟨a, b⟩ := h.back u h0 h1 hok
    exact ⟨(hSS _).1 a, b⟩
  opt := fun l hl hsum => h.opt l (fun x hx => (hSS x).2 (hl x hx)) hsum

theorem Inv.init {limit : Int} (hl : 0 ≤ limit) :
    Inv [] limit ((List.replicate (limit + 1).toNat state.zero).set (0 : Int).toNat
      ⟨true, 0, -1, 0⟩) := by
  have hlen : (0 : Int) < (List.replicate (limit + 1).toNat state.zero).length := by
    rw [List.length_replicate]; omega
  refine ⟨?_, ?_, ?_, ?_, ?_⟩
  · rw [List.length_set, List.length_replicate]; omega
  · rw [rd_set_eq _ 0 _ le_rfl hlen]
  · rw [rd_set_eq _ 0 _ le_rfl hlen]
  · intro u hu0 _ hok
    rw [rd_set_ne _ 0 u _ le_rfl hu0.le (by omega), rd_replicate] at hok
    exact absurd hok (by simp [state.zero])
  · intro l hl _
    have : l = [] := List.eq_nil_iff_forall_not_mem.2 (fun x hx => by simpa using hl x hx)
    subst this
    simp only [List.sum_nil, List.length_nil]
    rw [rd_set_eq _ 0 _ le_rfl hlen]
    simp

theorem wrap_range (x : Int) :
    -9223372036854775808 ≤ wrap x ∧ wrap x < 9223372036854775808 := by
  unfold wrap; omega

theorem wrap_id {x : Int} (h0 : -9223372036854775808 ≤ x) (h1 : x < 9223372036854775808) :
    wrap x = x := by
  unfold wrap; omega

/-- A table length within the bound of `makeslice` is computed exactly. -/
theorem wrap_len {limit : Int} (hl : 0 ≤ limit) (hb : limit + 1 ≤ maxLen) :
    wrap (limit + 1) = limit + 1 := by
  unfold maxLen at hb
  exact wrap_id (by omega) (by omega)

theorem buildTable_spec {limit : Int} (hl : 0 ≤ limit) (hb : limit + 1 ≤ maxLen)
    (sizes : List Int) (hsz : ∀ x ∈ sizes, 0 < x) :
    ∃ dp, buildTable limit sizes = .ok dp ∧ Inv sizes limit dp := by
  unfold buildTable make
  rw [wrap_len hl hb, if_neg (by omega)]
  simp only [bind, Except.bind]
  rw [assign_ok _ 0 _ le_rfl (by rw [List.length_replicate]; omega)]
  simp only
  obtain ⟨dp, e, h⟩ := fillAll_spec sizes [] _ hsz (by simp) (Inv.init hl)
  exact ⟨dp, e, h.congr (by simp)⟩

/-! ## The selection loop -/

theorem chooseStep_spec {limit : Int} {dp : List state} (hlen : (dp.length : Int) = limit + 1)
    {S : Int} (hS0 : 0 ≤ S) (hSl : S ≤ limit) (best : Int × Int) :
    chooseStep S dp best = .ok
      (if (rd dp S).OK = true ∧ (best.1 = -1 ∨ S < best.1 ∨
          (S = best.1 ∧ (rd dp S).Packs < best.2))
        then (S, (rd dp S).Packs) else best) := by
  unfold chooseStep
  rw [index_rd dp S hS0 (by omega)]
  simp only [bind, Except.bind, pure, Except.pure]
  by_cases hok : (rd dp S).OK = true
  · simp only [hok, Bool.not_true, Bool.false_eq_true, if_false, true_and]
    split <;> rfl
  · simp [hok]

theorem chooseLoop_found {limit : Int} {dp : List state}
    (hlen : (dp.length : Int) = limit + 1) :
    ∀ (fuel : Nat) (S : Int) (best : Int × Int), 0 ≤ S → (limit + 1 - S).toNat ≤ fuel →
      best.1 ≠ -1 → best.1 < S → chooseLoop limit dp fuel S best = .ok best := by
  intro fuel
  induction fuel with
  | zero =>
    intro S best _ hf _ _
    unfold chooseLoop
    rw [if_neg (by omega)]
  | succ n ih =>
    intro S best hS0 hf hb hbS
    unfold chooseLoop
    by_cases hSl : S ≤ limit
    · rw [if_pos hSl, chooseStep_spec hlen hS0 hSl best]
      simp only [bind, Except.bind]
      rw [if_neg (by
        rintro ⟨_, h | h | ⟨h, _⟩⟩
        · exact hb h
        · omega
        · omega)]
      exact ih (S + 1) best (by omega) (by omega) hb (by omega)
    · rw [if_neg hSl]

theorem chooseLoop_spec {limit : Int} {dp : List state}
    (hlen : (dp.length : Int) = limit + 1) :
    ∀ (fuel : Nat) (S : Int) (p : Int), 0 ≤ S → (limit + 1 - S).toNat ≤ fuel →
      ∃ best, chooseLoop limit dp fuel S (-1, p) = .ok best ∧ FirstHit limit dp S best := by
  intro fuel
  induction fuel with
  | zero =>
    intro S p _ hf
    refine ⟨(-1, p), ?_, Or.inl ⟨rfl, fun u h1 h2 => by omega⟩⟩
    unfold chooseLoop
    rw [if_neg (by omega)]
  | succ n ih =>
    intro S p hS0 hf
    unfold chooseLoop
    by_cases hSl : S ≤ limit
    · rw [if_pos hSl, chooseStep_spec hlen hS0 hSl (-1, p)]
      simp only [bind, Except.bind]
      by_cases hok : (rd dp S).OK = true
      · rw [if_pos (by simp [hok])]
        refine ⟨(S, (rd dp S).Packs), ?_, Or.inr ⟨le_rfl, hSl, hok, rfl, ?_⟩⟩
        · exact chooseLoop_found hlen n (S + 1) _ (by omega) (by omega)
            (by show S ≠ -1; omega) (by show S < S + 1; omega)
        · intro u h1 h2
          simp only at h2
          omega
      · rw [if_neg (fun h => hok h.1)]
        obtain ⟨best, e, hb⟩ := ih (S + 1) p (by omega) (by omega)
        refine ⟨best, e, ?_⟩
        have hS : ∀ u, S ≤ u → u < S + 1 → (rd dp u).OK = false := by
          intro u h1 h2
          have : u = S := by omega
          subst this
          simpa using hok
        rcases hb with ⟨b1, b2⟩ | ⟨b1, b2, b3, b4, b5⟩
        · left
          refine ⟨b1, fun u h1 h2 => ?_⟩
          by_cases hu : u < S + 1
          · exact hS u h1 hu
          · exact b2 u (by omega) h2
        · right
          refine ⟨by omega, b2, b3, b4, fun u h1 h2 => ?_⟩
          by_cases hu : u < S + 1
          · exact hS u h1 hu
          · exact b5 u (by omega) h2
    · rw [if_neg hSl]
      exact ⟨(-1, p), rfl, Or.inl ⟨rfl, fun u h1 h2 => by omega⟩⟩

/-! ## The reconstruction loop -/

theorem reconstruct_spec {S : List Int} {limit : Int} {dp : List state}
    (h : Inv S limit dp) :
    ∀ (fuel : Nat) (cur : Int) (counts : CountMap), 0 ≤ cur → cur ≤ limit →
      (rd dp cur).OK = true → cur.toNat ≤ fuel →
      ∃ path : List Int, reconstruct dp fuel cur counts = .ok (path.foldl CountMap.incr counts) ∧
        Over S path ∧ path.sum = cur ∧ (path.length : Int) ≤ (rd dp cur).Packs ∧
        (0 < cur → path ≠ []) := by
  intro fuel
  induction fuel with
  | zero =>
    intro cur counts h0 _ _ hf
    have hc : cur = 0 := by omega
    subst hc
    refine ⟨[], ?_, fun x hx => by simp at hx, rfl, ?_, fun hlt => absurd hlt (lt_irrefl _)⟩
    · unfold reconstruct
      rw [if_neg (by omega)]
      rfl
    · rw [h.zeroPacks]; simp
  | succ n ih =>
    intro cur counts h0 hl hok hf
    unfold reconstruct
    by_cases hc : cur > 0
    · rw [if_pos hc, index_rd dp cur h0 (by have := h.len; omega)]
      simp only [bind, Except.bind]
      obtain ⟨b1, b2, b3, b4, b5, b6⟩ := h.back cur hc hl hok
      obtain ⟨path, e, p1, p2, p3, _⟩ :=
        ih (rd dp cur).Prev (counts.incr (rd dp cur).Size) (by omega) (by omega) b5 (by omega)
      refine ⟨(rd dp cur).Size :: path, ?_, ?_, ?_, ?_, fun _ => List.cons_ne_nil _ _⟩
      · rw [e]; rfl
      · intro x hx
        rcases List.mem_cons.1 hx with rfl | hx
        · exact b1
        · exact p1 x hx
      · rw [List.sum_cons, p2]; omega
      · rw [List.length_cons]; push_cast; omega
    · rw [if_neg hc]
      have hc0 : cur = 0 := by omega
      subst hc0
      refine ⟨[], rfl, fun x hx => by simp at hx, rfl, ?_, fun hlt => absurd hlt (lt_irrefl _)⟩
      rw [h.zeroPacks]; simp

/-! ## The map built by `counts[size]++` -/

theorem incr_keys (m : CountMap) (k x : Int) :
    x ∈ (m.incr k).keys ↔ x = k ∨ x ∈ m.keys := by
  induction m with
  | nil => simp [CountMap.incr, CountMap.keys]
  | cons p rest ih =>
    obtain ⟨k', v⟩ := p
    unfold CountMap.incr
    by_cases hk : k' = k
    · rw [if_pos hk]
      subst hk
      simp [CountMap.keys]
    · rw [if_neg hk]
      simp only [CountMap.keys, List.map_cons, List.mem_cons] at ih ⊢
      rw [ih]
      tauto

theorem incr_nodup (m : CountMap) (k : Int) (h : m.keys.Nodup) : (m.incr k).keys.Nodup := by
  induction m with
  | nil => simp [CountMap.incr, CountMap.keys]
  | cons p rest ih =>
    obtain ⟨k', v⟩ := p
    have hn : k' ∉ CountMap.keys rest ∧ (CountMap.keys rest).Nodup := by
      simpa [CountMap.keys] using h
    unfold CountMap.incr
    by_cases hk : k' = k
    · rw [if_pos hk]
      simpa [CountMap.keys] using h
    · rw [if_neg hk]
      have h1 : k' ∉ (CountMap.incr rest k).keys := by
        rw [incr_keys]
        rintro (h1 | h1)
        · exact hk h1
        · exact hn.1 h1
      have h2 := ih hn.2
      simp only [CountMap.keys, List.map_cons, List.nodup_cons] at h1 h2 ⊢
      exact ⟨h1, h2⟩

theorem incr_total (m : CountMap) (k : Int) : (m.incr k).total = m.total + k := by
  induction m with
  | nil => simp [CountMap.incr, CountMap.total]
  | cons p rest ih =>
    obtain ⟨k', v⟩ := p
    unfold CountMap.incr
    by_cases hk : k' = k
    · rw [if_pos hk]
      subst hk
      simp only [CountMap.total, List.map_cons, List.sum_cons]
      ring
    · rw [if_neg hk]
      simp only [CountMap.total, List.map_cons, List.sum_cons] at ih ⊢
      rw [ih]; ring

theorem incr_packs (m : CountMap) (k : Int) : (m.incr k).packs = m.packs + 1 := by
  induction m with
  | nil => simp [CountMap.incr, CountMap.packs]
  | cons p rest ih =>
    obtain ⟨k', v⟩ := p
    unfold CountMap.incr
    by_cases hk : k' = k
    · rw [if_pos hk]
      simp only [CountMap.packs, List.map_cons, List.sum_cons]
      ring
    · rw [if_neg hk]
      simp only [CountMap.packs, List.map_cons, List.sum_cons] at ih ⊢
      rw [ih]; ring

theorem incr_pos (m : CountMap) (k : Int) (h : ∀ p ∈ m, 1 ≤ p.2) :
    ∀ p ∈ m.incr k, 1 ≤ p.2 := by
  induction m with
  | nil =>
    intro p hp
    simp only [CountMap.incr, List.mem_singleton] at hp
    subst hp
    exact le_rfl
  | cons q rest ih =>
    obtain ⟨k', v⟩ := q
    have hv : 1 ≤ v := h (k', v) (List.mem_cons_self _ _)
    have hr : ∀ p ∈ rest, 1 ≤ p.2 := fun p hp => h p (List.mem_cons_of_mem _ hp)
    intro p hp
    unfold CountMap.incr at hp
    by_cases hk : k' = k
    · rw [if_pos hk] at hp
      rcases List.mem_cons.1 hp with rfl | hp
      · show 1 ≤ v + 1
        omega
      · exact hr p hp
    · rw [if_neg hk] at hp
      rcases List.mem_cons.1 hp with rfl | hp
      · exact hv
      · exact ih hr p hp

theorem incr_get (m : CountMap) (k x : Int) :
    (m.incr k).get x = m.get x + (if x = k then 1 else 0) := by
  induction m with
  | nil =>
    by_cases hx : x = k
    · subst hx
      simp [CountMap.incr, CountMap.get, List.lookup]
    · have : (x == k) = false := by simpa using hx
      simp [CountMap.incr, CountMap.get, List.lookup, hx, this]
  | cons p rest ih =>
    obtain ⟨k', v⟩ := p
    unfold CountMap.incr
    by_cases hk : k' = k
    · rw [if_pos hk]
      subst hk
      by_cases hx : x = k'
      · subst hx
        simp [CountMap.get, List.lookup]
      · have : (x == k') = false := by simpa using hx
        simp [CountMap.get, List.lookup, hx, this]
    · rw [if_neg hk]
      by_cases hx : x = k'
      · subst hx
        have hxk : ¬ x = k := hk
        simp [CountMap.get, List.lookup, hxk]
      · have : (x == k') = false := by simpa using hx
        simp only [CountMap.get, List.lookup, this] at ih ⊢
        exact ih

theorem foldl_incr_keys (path : List Int) (m : CountMap) (x : Int) :
    x ∈ (path.foldl CountMap.incr m).keys ↔ x ∈ path ∨ x ∈ m.keys := by
  induction path generalizing m with
  | nil => simp
  | cons a rest ih =>
    rw [List.foldl_cons, ih, incr_keys, List.mem_cons]
    tauto

theorem foldl_incr_nodup (path : List Int) (m : CountMap) (h : m.keys.Nodup) :
    (path.foldl CountMap.incr m).keys.Nodup := by
  induction path generalizing m with
  | nil => exact h
  | cons a rest ih => exact ih _ (incr_nodup m a h)

theorem foldl_incr_total (path : List Int) (m : CountMap) :
    (path.foldl CountMap.incr m).total = m.total + path.sum := by
  induction path generalizing m with
  | nil => simp
  | cons a rest ih =>
    rw [List.foldl_cons, ih, incr_total, List.sum_cons]; ring

theorem foldl_incr_packs (path : List Int) (m : CountMap) :
    (path.foldl CountMap.incr m).packs = m.packs + path.length := by
  induction path generalizing m with
  | nil => simp
  | cons a rest ih =>
    rw [List.foldl_cons, ih, incr_packs, List.length_cons]; push_cast; ring

theorem foldl_incr_pos (path : List Int) (m : CountMap) (h : ∀ p ∈ m, 1 ≤ p.2) :
    ∀ p ∈ path.foldl CountMap.incr m, 1 ≤ p.2 := by
  induction path generalizing m with
  | nil => exact h
  | cons a rest ih => exact ih _ (incr_pos m a h)

theorem foldl_incr_get (path : List Int) (m : CountMap) (x : Int) :
    (path.foldl CountMap.incr m).get x = m.get x + path.count x := by
  induction path generalizing m with
  | nil => simp
  | cons a rest ih =>
    rw [List.foldl_cons, ih, incr_get, List.count_cons]
    by_cases hx : x = a
    · subst hx; simp; ring
    · have : (a == x) = false := by simpa using (Ne.symm hx)
      simp [hx, this]

/-! ## Sanitising and sorting the catalog -/

theorem sanitize_none (sizes : List Int) :
    ∀ sizeSet sizeBucket, (∃ x ∈ sizes, x ≤ 0) → sanitize sizes sizeSet sizeBucket = none := by
  induction sizes with
  | nil => intro _ _ h; simp at h
  | cons s rest ih =>
    intro sizeSet sizeBucket h
    unfold sanitize
    by_cases hs : s ≤ 0
    · rw [if_pos hs]
    · rw [if_neg hs]
      have hr : ∃ x ∈ rest, x ≤ 0 := by
        obtain ⟨x, hx, hx0⟩ := h
        rcases List.mem_cons.1 hx with rfl | hx
        · exact absurd hx0 hs
        · exact ⟨x, hx, hx0⟩
      split
      · exact ih _ _ hr
      · exact ih _ _ hr

theorem sanitize_some (sizes : List Int) :
    ∀ sizeSet sizeBucket, (∀ x ∈ sizes, 0 < x) → (∀ x, x ∈ sizeSet ↔ x ∈ sizeBucket) →
      sizeBucket.Nodup →
      ∃ b, sanitize sizes sizeSet sizeBucket = some b ∧ b.Nodup ∧
        ∀ x, x ∈ b ↔ x ∈ sizeBucket ∨ x ∈ sizes := by
  induction sizes with
  | nil =>
    intro _ sizeBucket _ _ hnd
    exact ⟨sizeBucket, rfl, hnd, by simp⟩
  | cons s rest ih =>
    intro sizeSet sizeBucket hpos hsame hnd
    have hs : ¬ s ≤ 0 := by have := hpos s (List.mem_cons_self _ _); omega
    have hr : ∀ x ∈ rest, 0 < x := fun x hx => hpos x (List.mem_cons_of_mem _ hx)
    unfold sanitize
    rw [if_neg hs]
    by_cases hm : s ∈ sizeSet
    · rw [if_pos hm]
      obtain ⟨b, e, b1, b2⟩ := ih sizeSet sizeBucket hr hsame hnd
      refine ⟨b, e, b1, fun x => ?_⟩
      rw [b2, List.mem_cons]
      constructor
      · rintro (h | h)
        · exact Or.inl h
        · exact Or.inr (Or.inr h)
      · rintro (h | rfl | h)
        · exact Or.inl h
        · exact Or.inl ((hsame _).1 hm)
        · exact Or.inr h
    · rw [if_neg hm]
      have hm' : s ∉ sizeBucket := fun h => hm ((hsame s).2 h)
      obtain ⟨b, e, b1, b2⟩ := ih (s :: sizeSet) (sizeBucket ++ [s]) hr
        (fun x => by simp only [List.mem_cons, List.mem_append, List.mem_singleton, hsame]; tauto)
        (by
          rw [List.nodup_append]
          refine ⟨hnd, List.nodup_singleton s, ?_⟩
          intro a ha hb
          rw [List.mem_singleton] at hb
          subst hb
          exact hm' ha)
      refine ⟨b, e, b1, fun x => ?_⟩
      rw [b2]
      simp only [List.mem_cons, List.mem_append, List.mem_singleton]
      tauto

theorem sortInts_perm (xs : List Int) : (sortInts xs).Perm xs :=
  List.perm_insertionSort _ xs

theorem sortInts_sorted (xs : List Int) : (sortInts xs).Sorted (· ≤ ·) :=
  List.sorted_insertionSort _ xs

theorem sortInts_mem (xs : List Int) (x : Int) : x ∈ sortInts xs ↔ x ∈ xs :=
  (sortInts_perm xs).mem_iff

theorem sorted_last_max {l : List Int} (h : l.Sorted (· ≤ ·)) {x : Int}
    (hx : l.get? (l.length - 1) = some x) : x ∈ l ∧ ∀ y ∈ l, y ≤ x := by
  refine ⟨List.get?_mem hx, fun y hy => ?_⟩
  obtain ⟨i, hi⟩ := List.get_of_mem hy
  have hlt : l.length - 1 < l.length := by have := i.2; omega
  have hxe : l.get ⟨l.length - 1, hlt⟩ = x := by
    rw [List.get?_eq_get hlt] at hx
    exact Option.some.inj hx
  rw [← hi, ← hxe]
  exact h.rel_get_of_le (by
    show i.val ≤ l.length - 1
    have := i.2
    omega)

/-! ## Multiples of a size -/

theorem exists_multiple {items m : Int} (hi : 0 < items) (hm : 0 < m) :
    ∃ k : Nat, items ≤ k * m ∧ k * m ≤ items + m - 1 := by
  have h1 : (items + m - 1) / m * m ≤ items + m - 1 := Int.ediv_mul_le _ (by omega)
  have h2 : items + m - 1 < ((items + m - 1) / m + 1) * m :=
    Int.lt_ediv_add_one_mul_self _ hm
  have h3 : 0 ≤ (items + m - 1) / m := Int.ediv_nonneg (by omega) hm.le
  refine ⟨((items + m - 1) / m).toNat, ?_, ?_⟩
  · rw [Int.toNat_of_nonneg h3]
    have : ((items + m - 1) / m + 1) * m = (items + m - 1) / m * m + m := by ring
    omega
  · rw [Int.toNat_of_nonneg h3]
    exact h1

/-! ## `Solve` on an invalid request -/

theorem Solve_items (items : Int) (sizes : List Int) (h : items ≤ 0) :
    Solve items sizes = .ok ⟨none, 0, some errItems⟩ := by
  unfold Solve
  rw [if_pos h]

theorem Solve_empty (items : Int) (h : 0 < items) :
    Solve items [] = .ok ⟨none, 0, some errEmpty⟩ := by
  unfold Solve
  rw [if_neg (by omega), if_pos List.length_nil]

theorem Solve_size (items : Int) (sizes : List Int) (hi : 0 < items) (hne : sizes ≠ [])
    (hx : ∃ x ∈ sizes, x ≤ 0) : Solve items sizes = .ok ⟨none, 0, some errSize⟩ := by
  unfold Solve
  rw [if_neg (by omega), if_neg (by
    intro h0
    exact hne (List.length_eq_zero.1 h0)), sanitize_none sizes [] [] hx]

/-- The four ways a call of `Solve` can go. -/
theorem Solve_cases (items : Int) (sizes : List Int) :
    Solve items sizes = .ok ⟨none, 0, some errItems⟩ ∨
    Solve items sizes = .ok ⟨none, 0, some errEmpty⟩ ∨
    Solve items sizes = .ok ⟨none, 0, some errSize⟩ ∨
    (0 < items ∧ sizes ≠ [] ∧ ∀ x ∈ sizes, 0 < x) := by
  by_cases hi : items ≤ 0
  · exact Or.inl (Solve_items items sizes hi)
  · by_cases hne : sizes = []
    · subst hne
      exact Or.inr (Or.inl (Solve_empty items (by omega)))
    · by_cases hx : ∃ x ∈ sizes, x ≤ 0
      · exact Or.inr (Or.inr (Or.inl (Solve_size items sizes (by omega) hne hx)))
      · refine Or.inr (Or.inr (Or.inr ⟨by omega, hne, fun x hxs => ?_⟩))
        by_contra hc
        exact hx ⟨x, hxs, by omega⟩

theorem foldl_incr_ne_nil (path : List Int) (h : path ≠ []) :
    path.foldl CountMap.incr [] ≠ [] := by
  obtain ⟨x, hx⟩ := List.exists_mem_of_ne_nil path h
  have hk : x ∈ (path.foldl CountMap.incr []).keys :=
    (foldl_incr_keys path [] x).2 (Or.inl hx)
  intro he
  rw [he] at hk
  simp [CountMap.keys] at hk

/-! ## The contract of `Solve` -/

/-- C5, validation: `items <= 0` gives the error "items must be > 0" whatever
the sizes are; `items > 0` with no sizes gives "at least one pack size is
required"; `items > 0` with a non-empty list holding an element `<= 0` at any
position gives "pack sizes must be positive". No map and total 0 come with each. -/
theorem Solve_validation (items : Int) (sizes : List Int) :
    (items ≤ 0 → Solve items sizes = .ok ⟨none, 0, some "items must be > 0"⟩) ∧
    (0 < items → sizes = [] →
      Solve items sizes = .ok ⟨none, 0, some "at least one pack size is required"⟩) ∧
    (0 < items → sizes ≠ [] → (∃ x ∈ sizes, x ≤ 0) →
      Solve items sizes = .ok ⟨none, 0, some "pack sizes must be positive"⟩) := by
  refine ⟨fun h => Solve_items items sizes h, fun h hs => ?_,
    fun h hne hx => Solve_size items sizes h hne hx⟩
  subst hs
  exact Solve_empty items h

theorem Solve_validation_witness :
    Solve 0 [250, 500] = .ok ⟨none, 0, some "items must be > 0"⟩ ∧
    Solve (-3) [] = .ok ⟨none, 0, some "items must be > 0"⟩ ∧
    Solve 10 [] = .ok ⟨none, 0, some "at least one pack size is required"⟩ ∧
    Solve 10 [-1, 5] = .ok ⟨none, 0, some "pack sizes must be positive"⟩ ∧
    Solve 10 [5, 0] = .ok ⟨none, 0, some "pack sizes must be positive"⟩ :=
  ⟨(Solve_validation 0 [250, 500]).1 (by decide),
   (Solve_validation (-3) []).1 (by decide),
   (Solve_validation 10 []).2.1 (by decide) rfl,
   (Solve_validation 10 [-1, 5]).2.2 (by decide) (by decide) ⟨-1, by decide, by decide⟩,
   (Solve_validation 10 [5, 0]).2.2 (by decide) (by decide) ⟨0, by decide, by decide⟩⟩

/-! ## The catalog is a set -/

theorem Solve_eq_solveSorted (items : Int) (sizes : List Int) (hi : 0 < items)
    (hne : sizes ≠ []) (hpos : ∀ x ∈ sizes, 0 < x) :
    ∃ b, sanitize sizes [] [] = some b ∧ b.Nodup ∧ (∀ x, x ∈ b ↔ x ∈ sizes) ∧
      Solve items sizes = solveSorted items (sortInts b) := by
  obtain ⟨b, hb, hnd, hbm⟩ := sanitize_some sizes [] [] hpos (by simp) List.nodup_nil
  refine ⟨b, hb, hnd, fun x => by rw [hbm]; simp, ?_⟩
  unfold Solve
  rw [if_neg (by omega), if_neg (by
    intro h0
    exact hne (List.length_eq_zero.1 h0)), hb]

theorem sortInts_congr {b1 b2 : List Int} (h1 : b1.Nodup) (h2 : b2.Nodup)
    (h : ∀ x, x ∈ b1 ↔ x ∈ b2) : sortInts b1 = sortInts b2 := by
  have hp : b1.Perm b2 := (List.perm_ext_iff_of_nodup h1 h2).2 h
  have hp' : (sortInts b1).Perm (sortInts b2) :=
    (sortInts_perm b1).trans (hp.trans (sortInts_perm b2).symm)
  exact List.eq_of_perm_of_sorted hp' (sortInts_sorted b1) (sortInts_sorted b2)

/-- C6, the catalog is a set: two size lists with the same elements (any order,
any repetition) give the same outcome of `Solve` for every `items`: the same
total, the same map and the same error. -/
theorem Solve_catalog_set (items : Int) (sizes1 sizes2 : List Int)
    (h : ∀ x, x ∈ sizes1 ↔ x ∈ sizes2) : Solve items sizes1 = Solve items sizes2 := by
  by_cases hi : items ≤ 0
  · rw [Solve_items items sizes1 hi, Solve_items items sizes2 hi]
  have hi' : 0 < items := by omega
  by_cases hne : sizes1 = []
  · have hne2 : sizes2 = [] :=
      List.eq_nil_iff_forall_not_mem.2 (fun x hx => by
        have := (h x).2 hx
        rw [hne] at this
        simp at this)
    rw [hne, hne2]
  have hne2 : sizes2 ≠ [] := by
    obtain ⟨x, hx⟩ := List.exists_mem_of_ne_nil sizes1 hne
    exact List.ne_nil_of_mem ((h x).1 hx)
  by_cases hx : ∃ x ∈ sizes1, x ≤ 0
  · have hx2 : ∃ x ∈ sizes2, x ≤ 0 := by
      obtain ⟨x, hx1, hx0⟩ := hx
      exact ⟨x, (h x).1 hx1, hx0⟩
    rw [Solve_size items sizes1 hi' hne hx, Solve_size items sizes2 hi' hne2 hx2]
  have hpos1 : ∀ x ∈ sizes1, 0 < x := by
    intro x hx1
    by_contra hc
    exact hx ⟨x, hx1, by omega⟩
  have hpos2 : ∀ x ∈ sizes2, 0 < x := fun x hx2 => hpos1 x ((h x).2 hx2)
  obtain ⟨b1, _, n1, m1, e1⟩ := Solve_eq_solveSorted items sizes1 hi' hne hpos1
  obtain ⟨b2, _, n2, m2, e2⟩ := Solve_eq_solveSorted items sizes2 hi' hne2 hpos2
  rw [e1, e2, sortInts_congr n1 n2 (fun x => by rw [m1, m2, h])]

theorem Solve_catalog_set_witness :
    Solve 12 [5, 3, 5, 9] = Solve 12 [9, 9, 3, 5] :=
  Solve_catalog_set 12 [5, 3, 5, 9] [9, 9, 3, 5] (by
    intro x
    simp only [List.mem_cons, List.mem_singleton, List.not_mem_nil, or_false]
    tauto)

/-! ## `SortedDescKeys` -/

theorem sortIntsDesc_perm (xs : List Int) : (sortIntsDesc xs).Perm xs :=
  List.perm_insertionSort _ xs

theorem sortIntsDesc_sorted (xs : List Int) : (sortIntsDesc xs).Sorted (· ≥ ·) :=
  List.sorted_insertionSort _ xs

theorem sortIntsDesc_congr {xs ys : List Int} (h : xs.Perm ys) :
    sortIntsDesc xs = sortIntsDesc ys :=
  List.eq_of_perm_of_sorted
    ((sortIntsDesc_perm xs).trans (h.trans (sortIntsDesc_perm ys).symm))
    (sortIntsDesc_sorted xs) (sortIntsDesc_sorted ys)

/-- C8, `SortedDescKeys`: for a map (distinct keys) the returned list holds each
key exactly once and nothing else, has as many elements as the map, and is
strictly descending, whatever order the keys were collected in; the packs the
handler renders follow that order, so their sizes are strictly descending. -/
theorem SortedDescKeys_spec (m : CountMap) (h : m.keys.Nodup) :
    (∀ k, (SortedDescKeys m).count k = if k ∈ m.keys then 1 else 0) ∧
    (SortedDescKeys m).length = m.length ∧
    (SortedDescKeys m).Sorted (· > ·) ∧
    (∀ ks : List Int, ks.Perm m.keys → sortIntsDesc ks = SortedDescKeys m) ∧
    (renderPacks m).map Prod.fst = SortedDescKeys m ∧
    ((renderPacks m).map Prod.fst).Sorted (· > ·) ∧
    (∀ p ∈ renderPacks m, p.2 = m.get p.1) := by
  have hp : (SortedDescKeys m).Perm m.keys := sortIntsDesc_perm m.keys
  have hnd : (SortedDescKeys m).Nodup := hp.nodup_iff.2 h
  have hs : (SortedDescKeys m).Sorted (· > ·) :=
    (sortIntsDesc_sorted m.keys).gt_of_ge hnd
  have hr : (renderPacks m).map Prod.fst = SortedDescKeys m := by
    unfold renderPacks
    rw [List.map_map]
    exact List.map_id _
  refine ⟨fun k => ?_, ?_, hs, fun ks hks => sortIntsDesc_congr hks, hr, ?_, ?_⟩
  · by_cases hk : k ∈ m.keys
    · rw [if_pos hk]
      exact List.count_eq_one_of_mem hnd (hp.mem_iff.2 hk)
    · rw [if_neg hk]
      exact List.count_eq_zero_of_not_mem (fun hc => hk (hp.mem_iff.1 hc))
  · rw [hp.length_eq, CountMap.keys, List.length_map]
  · rw [hr]; exact hs
  · intro p hp'
    unfold renderPacks at hp'
    obtain ⟨s, _, rfl⟩ := List.mem_map.1 hp'
    rfl

theorem SortedDescKeys_spec_witness :
    (∀ k, (SortedDescKeys [(250, 1), (5000, 2), (2000, 1)]).count k =
      if k ∈ CountMap.keys [(250, 1), (5000, 2), (2000, 1)] then 1 else 0) ∧
    (SortedDescKeys [(250, 1), (5000, 2), (2000, 1)]).length =
      List.length [((250 : Int), (1 : Int)), (5000, 2), (2000, 1)] ∧
    (SortedDescKeys [(250, 1), (5000, 2), (2000, 1)]).Sorted (· > ·) ∧
    (∀ ks : List Int, ks.Perm (CountMap.keys [(250, 1), (5000, 2), (2000, 1)]) →
      sortIntsDesc ks = SortedDescKeys [(250, 1), (5000, 2), (2000, 1)]) ∧
    (renderPacks [(250, 1), (5000, 2), (2000, 1)]).map Prod.fst =
      SortedDescKeys [(250, 1), (5000, 2), (2000, 1)] ∧
    ((renderPacks [(250, 1), (5000, 2), (2000, 1)]).map Prod.fst).Sorted (· > ·) ∧
    (∀ p ∈ renderPacks [(250, 1), (5000, 2), (2000, 1)],
      p.2 = CountMap.get [(250, 1), (5000, 2), (2000, 1)] p.1) :=
  SortedDescKeys_spec [(250, 1), (5000, 2), (2000, 1)] (by decide)

/-! ## The size parser -/

theorem parseParts_pos (parts : List (List Char)) :
    ∀ (acc out : List Int), (∀ x ∈ acc, 0 < x) → parseParts parts acc = .ok out →
      ∀ x ∈ out, 0 < x := by
  induction parts with
  | nil =>
    intro acc out hacc h
    unfold parseParts at h
    cases h
    exact hacc
  | cons p rest ih =>
    intro acc out hacc h
    unfold parseParts at h
    simp only at h
    split at h
    · exact ih acc out hacc h
    · split at h
      · cases h
      · split at h
        · cases h
        · rename_i v _ hv
          refine ih _ out (fun x hx => ?_) h
          rcases List.mem_append.1 hx with hx | hx
          · exact hacc x hx
          · rw [List.mem_singleton] at hx
            subst hx
            omega

/-- What the parser does guarantee: every size of a successful parse is positive. -/
theorem parseSizesCSV_pos (csv : String) (out : List Int) (h : parseSizesCSV csv = .ok out) :
    ∀ x ∈ out, 0 < x := by
  unfold parseSizesCSV at h
  split at h
  · cases h
  · exact parseParts_pos _ [] out (by simp) h

/-- C10 at the input `","`: the string is not blank, both of its fields are
empty and skipped, so `parseSizesCSV` returns the empty list with a nil error
(also through `parseSizesFromEnv`), and `Solve` then fails on that catalog with
"at least one pack size is required". -/
theorem parseSizesCSV_only_commas :
    parseSizesCSV "," = .ok [] ∧ parseSizesFromEnv "," = .ok [] ∧
    Solve 1 [] = .ok ⟨none, 0, some "at least one pack size is required"⟩ :=
  ⟨rfl, rfl, by decide⟩

/-! ## Counting the packs of the default catalog -/

theorem sum_length_default (l : List Int) (h : Over [250, 500, 1000, 2000, 5000] l) :
    l.sum = 250 * (l.count 250 : Int) + 500 * (l.count 500 : Int) +
        1000 * (l.count 1000 : Int) + 2000 * (l.count 2000 : Int) +
        5000 * (l.count 5000 : Int) ∧
      (l.length : Int) = (l.count 250 : Int) + (l.count 500 : Int) + (l.count 1000 : Int) +
        (l.count 2000 : Int) + (l.count 5000 : Int) := by
  induction l with
  | nil => simp
  | cons x rest ih =>
    have hx : x ∈ [250, 500, 1000, 2000, 5000] := h x (List.mem_cons_self _ _)
    obtain ⟨i1, i2⟩ := ih (fun y hy => h y (List.mem_cons_of_mem _ hy))
    simp only [List.mem_cons, List.mem_singleton, List.not_mem_nil, or_false] at hx
    rcases hx with rfl | rfl | rfl | rfl | rfl <;>
      simp [List.count_cons, List.sum_cons] <;> omega

/-- The map built from a walk is the map `e` when the walk meets every size as
often as `e` says. -/
theorem Same_of_count (path S : List Int) (hov : Over S path) (e : CountMap)
    (h1 : ∀ s ∈ S, (path.count s : Int) = e.get s)
    (h2 : ∀ k ∈ e.keys, k ∈ S ∧ 0 < e.get k)
    (h3 : ∀ k, k ∉ e.keys → e.get k = 0) :
    (path.foldl CountMap.incr []).Same e := by
  have hkeys : ∀ k, k ∈ (path.foldl CountMap.incr []).keys ↔ k ∈ path := by
    intro k
    rw [foldl_incr_keys]
    simp [CountMap.keys]
  have hget : ∀ k, (path.foldl CountMap.incr []).get k = path.count k := by
    intro k
    rw [foldl_incr_get]
    simp [CountMap.get, List.lookup]
  refine ⟨foldl_incr_nodup path [] (by simp [CountMap.keys]), fun k => ?_, fun k => ?_⟩
  · rw [hkeys]
    constructor
    · intro hk
      by_contra hc
      have := h1 k (hov k hk)
      rw [h3 k hc] at this
      have hp : 0 < path.count k := List.count_pos_iff.2 hk
      omega
    · intro hk
      obtain ⟨a, b⟩ := h2 k hk
      have := h1 k a
      exact List.count_pos_iff.1 (by omega)
  · rw [hget]
    by_cases hk : k ∈ path
    · exact h1 k (hov k hk)
    · rw [List.count_eq_zero_of_not_mem hk]
      by_cases hc : k ∈ e.keys
      · obtain ⟨a, b⟩ := h2 k hc
        have := h1 k a
        rw [List.count_eq_zero_of_not_mem hk] at this
        exact this
      · rw [h3 k hc]; rfl

/-! ## The walk of the reconstruction -/

/-- The reconstruction loop counts exactly the sizes met along `walk`. -/
theorem reconstruct_walk {S : List Int} {limit : Int} {dp : List state}
    (h : Inv S limit dp) :
    ∀ (fuel : Nat) (cur : Int) (counts : CountMap), 0 ≤ cur → cur ≤ limit →
      (rd dp cur).OK = true → cur.toNat ≤ fuel →
      reconstruct dp fuel cur counts = .ok ((packsOf dp fuel cur).foldl CountMap.incr counts) ∧
      (∀ u ∈ walk dp fuel cur, 0 < u ∧ u ≤ cur ∧ (rd dp u).OK = true ∧
        0 ≤ (rd dp u).Prev ∧ (rd dp u).Prev < u) ∧
      Over S (packsOf dp fuel cur) ∧ (packsOf dp fuel cur).sum = cur ∧
      ((packsOf dp fuel cur).length : Int) ≤ (rd dp cur).Packs := by
  intro fuel
  induction fuel with
  | zero =>
    intro cur counts h0 _ _ hf
    have hc : cur = 0 := by omega
    subst hc
    refine ⟨?_, fun u hu => by simp [walk] at hu, fun x hx => by simp [packsOf, walk] at hx,
      by simp [packsOf, walk], ?_⟩
    · unfold reconstruct
      rw [if_neg (by omega)]
      rfl
    · rw [h.zeroPacks]; simp [packsOf, walk]
  | succ n ih =>
    intro cur counts h0 hl hok hf
    by_cases hc : cur > 0
    · obtain ⟨b1, b2, b3, b4, b5, b6⟩ := h.back cur hc hl hok
      obtain ⟨e, w1, w2, w3, w4⟩ :=
        ih (rd dp cur).Prev (counts.incr (rd dp cur).Size) (by omega) (by omega) b5 (by omega)
      have hw : walk dp (n + 1) cur = cur :: walk dp n (rd dp cur).Prev := by
        rw [walk, if_pos hc]
      have hp : packsOf dp (n + 1) cur = (rd dp cur).Size :: packsOf dp n (rd dp cur).Prev := by
        simp only [packsOf, hw, List.map_cons]
      refine ⟨?_, ?_, ?_, ?_, ?_⟩
      · unfold reconstruct
        rw [if_pos hc, index_rd dp cur h0 (by have := h.len; omega)]
        simp only [bind, Except.bind]
        rw [e, hp]
        rfl
      · intro u hu
        rw [hw] at hu
        rcases List.mem_cons.1 hu with rfl | hu
        · exact ⟨hc, le_rfl, hok, by omega, by omega⟩
        · obtain ⟨a1, a2, a3⟩ := w1 u hu
          exact ⟨a1, by omega, a3⟩
      · rw [hp]
        intro x hx
        rcases List.mem_cons.1 hx with rfl | hx
        · exact b1
        · exact w2 x hx
      · rw [hp, List.sum_cons, w3]; omega
      · rw [hp, List.length_cons]; push_cast; omega
    · have hc0 : cur = 0 := by omega
      subst hc0
      have hw : walk dp (n + 1) 0 = [] := by rw [walk, if_neg (by omega)]
      refine ⟨?_, fun u hu => by simp [hw] at hu, fun x hx => by simp [packsOf, hw] at hx,
        by simp [packsOf, hw], ?_⟩
      · unfold reconstruct
        rw [if_neg (by omega)]
        simp [packsOf, hw]
      · rw [h.zeroPacks]; simp [packsOf, hw]

/-! ## What the finished table says -/

/-- A marked total has a pack list with exactly `Packs` packs. -/
theorem Inv.exists_list {S : List Int} {limit : Int} {dp : List state} (h : Inv S limit dp)
    {u : Int} (h0 : 0 ≤ u) (hl : u ≤ limit) (hok : (rd dp u).OK = true) :
    ∃ l : List Int, Over S l ∧ l.sum = u ∧ (l.length : Int) = (rd dp u).Packs := by
  obtain ⟨_, _, w2, w3, w4⟩ := reconstruct_walk h u.toNat u [] h0 hl hok le_rfl
  refine ⟨packsOf dp u.toNat u, w2, w3, ?_⟩
  have := (h.opt _ w2 (by omega)).2
  rw [w3] at this
  omega

/-- A total within the table is marked exactly when it is a sum of sizes. -/
theorem Inv.reach_iff {S : List Int} {limit : Int} {dp : List state} (h : Inv S limit dp)
    {u : Int} (h0 : 0 ≤ u) (hl : u ≤ limit) :
    (rd dp u).OK = true ↔ ∃ l : List Int, Over S l ∧ l.sum = u := by
  constructor
  · intro hok
    obtain ⟨l, a, b, _⟩ := h.exists_list h0 hl hok
    exact ⟨l, a, b⟩
  · rintro ⟨l, a, b⟩
    have := (h.opt l a (by omega)).1
    rw [b] at this
    exact this

/-- The back-pointer of a marked total leads to an entry with one pack less. -/
theorem Inv.back_eq {S : List Int} {limit : Int} {dp : List state} (h : Inv S limit dp)
    {u : Int} (h0 : 0 < u) (hl : u ≤ limit) (hok : (rd dp u).OK = true) :
    (rd dp u).Packs = (rd dp (rd dp u).Prev).Packs + 1 := by
  obtain ⟨b1, b2, b3, b4, b5, b6⟩ := h.back u h0 hl hok
  obtain ⟨l, a, b, c⟩ := h.exists_list (by omega : 0 ≤ (rd dp u).Prev) (by omega) b5
  have hov : Over S ((rd dp u).Size :: l) := by
    intro x hx
    rcases List.mem_cons.1 hx with rfl | hx
    · exact b1
    · exact a x hx
  have hsum : ((rd dp u).Size :: l).sum = u := by rw [List.sum_cons, b]; omega
  have := (h.opt _ hov (by omega)).2
  rw [hsum, List.length_cons] at this
  push_cast at this
  omega

theorem Inv.packs_nonneg {S : List Int} {limit : Int} {dp : List state} (h : Inv S limit dp)
    {u : Int} (h0 : 0 ≤ u) (hl : u ≤ limit) (hok : (rd dp u).OK = true) :
    0 ≤ (rd dp u).Packs := by
  obtain ⟨l, _, _, c⟩ := h.exists_list h0 hl hok
  omega

/-! ## Behaviour of the loops -/

theorem chooseLoop_eq_firstHitScan {limit : Int} {dp : List state}
    (hlen : (dp.length : Int) = limit + 1) :
    ∀ (fuel : Nat) (S : Int), 0 ≤ S → (limit + 1 - S).toNat ≤ fuel →
      chooseLoop limit dp fuel S (-1, 0) = firstHitScan limit dp fuel S := by
  intro fuel
  induction fuel with
  | zero =>
    intro S _ hf
    unfold chooseLoop firstHitScan
    rw [if_neg (by omega)]
  | succ n ih =>
    intro S hS0 hf
    unfold chooseLoop firstHitScan
    by_cases hSl : S ≤ limit
    · rw [if_pos hSl, if_pos hSl, chooseStep_spec hlen hS0 hSl (-1, 0),
        index_rd dp S hS0 (by omega)]
      simp only [bind, Except.bind, pure, Except.pure]
      by_cases hok : (rd dp S).OK = true
      · rw [if_pos (by simp [hok]), if_pos hok]
        exact chooseLoop_found hlen n (S + 1) _ (by omega) (by omega)
          (by show S ≠ -1; omega) (by show S < S + 1; omega)
      · rw [if_neg (fun h => hok h.1), if_neg hok]
        exact ih (S + 1) (by omega) (by omega)
    · rw [if_neg hSl, if_neg hSl]

theorem chooseStates_spec {limit : Int} {dp : List state}
    (hlen : (dp.length : Int) = limit + 1) :
    ∀ (fuel : Nat) (S : Int) (best : Int × Int), 0 ≤ S → (best.1 = -1 ∨ best.1 < S) →
      ∀ p ∈ chooseStates limit dp fuel S best,
        0 ≤ p.1 ∧ p.1 ≤ limit ∧ ¬ p.1 < p.2.1 ∧ ¬ (p.1 = p.2.1 ∧ (rd dp p.1).Packs < p.2.2) := by
  intro fuel
  induction fuel with
  | zero =>
    intro S best _ _ p hp
    simp [chooseStates] at hp
  | succ n ih =>
    intro S best hS0 hb p hp
    unfold chooseStates at hp
    by_cases hSl : S ≤ limit
    · rw [if_pos hSl, chooseStep_spec hlen hS0 hSl best] at hp
      simp only at hp
      rcases List.mem_cons.1 hp with rfl | hp
      · refine ⟨hS0, hSl, ?_, ?_⟩
        · show ¬ S < best.1
          omega
        · show ¬ (S = best.1 ∧ _)
          rintro ⟨h1, _⟩
          omega
      · refine ih (S + 1) _ (by omega) ?_ p hp
        split
        · right
          show S < S + 1
          omega
        · rcases hb with hb | hb
          · exact Or.inl hb
          · right; omega
    · rw [if_neg hSl] at hp
      simp at hp

/-- C12, the selection loop against a first-hit scan: on a table of `limit + 1`
entries and a start `items >= 0`, the loop of lines 59-69 returns what a scan
stopping at the first marked total `S >= items` returns; the result is `-1`
exactly when no total from `items` to `limit` is marked, and otherwise the least
marked total with its pack count (the outcome of selecting the minimum total,
then the minimum packs); and in no iteration is `S < bestS` or
`S == bestS && dp[S].Packs < bestP` true. -/
theorem chooseLoop_first_hit (limit items : Int) (dp : List state)
    (hlen : (dp.length : Int) = limit + 1) (h0 : 0 ≤ items) :
    chooseLoop limit dp (limit + 1 - items).toNat items (-1, 0) =
      firstHitScan limit dp (limit + 1 - items).toNat items ∧
    (∃ best, chooseLoop limit dp (limit + 1 - items).toNat items (-1, 0) = .ok best ∧
      (best.1 = -1 ↔ ∀ u, items ≤ u → u ≤ limit → (rd dp u).OK = false) ∧
      (best.1 ≠ -1 → items ≤ best.1 ∧ best.1 ≤ limit ∧ (rd dp best.1).OK = true ∧
        best.2 = (rd dp best.1).Packs ∧
        (∀ u, items ≤ u → u ≤ limit → (rd dp u).OK = true → best.1 ≤ u) ∧
        (∀ u, u = best.1 → (rd dp u).OK = true → best.2 ≤ (rd dp u).Packs))) ∧
    (∀ p ∈ chooseStates limit dp (limit + 1 - items).toNat items (-1, 0),
      ¬ p.1 < p.2.1 ∧ ¬ (p.1 = p.2.1 ∧ (rd dp p.1).Packs < p.2.2)) := by
  refine ⟨chooseLoop_eq_firstHitScan hlen _ items h0 le_rfl, ?_, fun p hp => ?_⟩
  · obtain ⟨best, e, hf⟩ := chooseLoop_spec hlen (limit + 1 - items).toNat items 0 h0 le_rfl
    refine ⟨best, e, ?_, ?_⟩
    · rcases hf with ⟨f1, f2⟩ | ⟨f1, f2, f3, _, _⟩
      · exact ⟨fun _ => f2, fun _ => f1⟩
      · constructor
        · intro hb; omega
        · intro hall
          have := hall best.1 f1 f2
          rw [f3] at this
          exact absurd this (by simp)
    · intro hb
      rcases hf with ⟨f1, _⟩ | ⟨f1, f2, f3, f4, f5⟩
      · exact absurd f1 hb
      · refine ⟨f1, f2, f3, f4, fun u h1 _ hok => ?_, fun u hu _ => ?_⟩
        · by_contra hc
          have := f5 u h1 (by omega)
          rw [hok] at this
          exact absurd this (by simp)
        · rw [hu, f4]
  · exact (chooseStates_spec hlen _ items (-1, 0) h0 (Or.inl rfl) p hp).2.2

theorem chooseLoop_first_hit_witness :
    chooseLoop 3 [⟨true, 0, -1, 0⟩, state.zero, ⟨true, 1, 0, 2⟩, state.zero]
        (3 + 1 - 1 : Int).toNat 1 (-1, 0) =
      firstHitScan 3 [⟨true, 0, -1, 0⟩, state.zero, ⟨true, 1, 0, 2⟩, state.zero]
        (3 + 1 - 1 : Int).toNat 1 ∧
    (∃ best, chooseLoop 3 [⟨true, 0, -1, 0⟩, state.zero, ⟨true, 1, 0, 2⟩, state.zero]
        (3 + 1 - 1 : Int).toNat 1 (-1, 0) = .ok best ∧
      (best.1 = -1 ↔ ∀ u, 1 ≤ u → u ≤ 3 →
        (rd [⟨true, 0, -1, 0⟩, state.zero, ⟨true, 1, 0, 2⟩, state.zero] u).OK = false) ∧
      (best.1 ≠ -1 → 1 ≤ best.1 ∧ best.1 ≤ 3 ∧
        (rd [⟨true, 0, -1, 0⟩, state.zero, ⟨true, 1, 0, 2⟩, state.zero] best.1).OK = true ∧
        best.2 = (rd [⟨true, 0, -1, 0⟩, state.zero, ⟨true, 1, 0, 2⟩, state.zero] best.1).Packs ∧
        (∀ u, 1 ≤ u → u ≤ 3 →
          (rd [⟨true, 0, -1, 0⟩, state.zero, ⟨true, 1, 0, 2⟩, state.zero] u).OK = true →
          best.1 ≤ u) ∧
        (∀ u, u = best.1 →
          (rd [⟨true, 0, -1, 0⟩, state.zero, ⟨true, 1, 0, 2⟩, state.zero] u).OK = true →
          best.2 ≤ (rd [⟨true, 0, -1, 0⟩, state.zero, ⟨true, 1, 0, 2⟩, state.zero] u).Packs))) ∧
    (∀ p ∈ chooseStates 3 [⟨true, 0, -1, 0⟩, state.zero, ⟨true, 1, 0, 2⟩, state.zero]
        (3 + 1 - 1 : Int).toNat 1 (-1, 0),
      ¬ p.1 < p.2.1 ∧ ¬ (p.1 = p.2.1 ∧
        (rd [⟨true, 0, -1, 0⟩, state.zero, ⟨true, 1, 0, 2⟩, state.zero] p.1).Packs < p.2.2)) :=
  chooseLoop_first_hit 3 1 [⟨true, 0, -1, 0⟩, state.zero, ⟨true, 1, 0, 2⟩, state.zero]
    (by decide) (by decide)

/-! ## Termination of the reconstruction -/

theorem length_le_sum {l : List Int} (hpos : ∀ x ∈ l, 0 < x) : (l.length : Int) ≤ l.sum := by
  induction l with
  | nil => simp
  | cons x rest ih =>
    have hx := hpos x (List.mem_cons_self _ _)
    have := ih (fun y hy => hpos y (List.mem_cons_of_mem _ hy))
    rw [List.length_cons, List.sum_cons]
    push_cast
    omega

theorem Inv.packs_le {S : List Int} {limit : Int} {dp : List state} (h : Inv S limit dp)
    (hS : ∀ x ∈ S, 0 < x) {u : Int} (h0 : 0 ≤ u) (hl : u ≤ limit)
    (hok : (rd dp u).OK = true) : (rd dp u).Packs ≤ u := by
  obtain ⟨l, a, b, c⟩ := h.exists_list h0 hl hok
  have := length_le_sum (Over.pos hS a)
  omega

theorem Inv.packs_pos {S : List Int} {limit : Int} {dp : List state} (h : Inv S limit dp)
    {u : Int} (h0 : 0 < u) (hl : u ≤ limit) (hok : (rd dp u).OK = true) :
    0 < (rd dp u).Packs := by
  have e := h.back_eq h0 hl hok
  obtain ⟨_, _, _, _, b5, _⟩ := h.back u h0 hl hok
  obtain ⟨_, b2, _, b4, _, _⟩ := h.back u h0 hl hok
  have := h.packs_nonneg (by omega : 0 ≤ (rd dp u).Prev) (by omega) b5
  omega

/-- Any two amounts of fuel that cover `Packs` give the same reconstruction. -/
theorem reconstruct_fuel {S : List Int} {limit : Int} {dp : List state} (h : Inv S limit dp) :
    ∀ (fuel fuel' : Nat) (cur : Int) (counts : CountMap), 0 ≤ cur → cur ≤ limit →
      (rd dp cur).OK = true → (rd dp cur).Packs ≤ fuel → (rd dp cur).Packs ≤ fuel' →
      reconstruct dp fuel cur counts = reconstruct dp fuel' cur counts := by
  intro fuel
  induction fuel with
  | zero =>
    intro fuel' cur counts h0 hl hok hf _
    have hc : ¬ cur > 0 := by
      intro hc
      have := h.packs_pos hc hl hok
      simp only [Nat.cast_zero] at hf
      omega
    cases fuel' with
    | zero => rfl
    | succ n' =>
      unfold reconstruct
      rw [if_neg hc, if_neg hc]
  | succ n ih =>
    intro fuel' cur counts h0 hl hok hf hf'
    by_cases hc : cur > 0
    · have hp := h.packs_pos hc hl hok
      have e := h.back_eq hc hl hok
      obtain ⟨_, b2, b3, b4, b5, _⟩ := h.back cur hc hl hok
      cases fuel' with
      | zero => simp only [Nat.cast_zero] at hf'; omega
      | succ n' =>
        unfold reconstruct
        rw [if_pos hc, if_pos hc, index_rd dp cur h0 (by have := h.len; omega)]
        simp only [bind, Except.bind]
        push_cast at hf hf'
        exact ih n' _ _ (by omega) (by omega) b5 (by omega) (by omega)
    · cases fuel' with
      | zero =>
        unfold reconstruct
        rw [if_neg hc, if_neg hc]
      | succ n' =>
        unfold reconstruct
        rw [if_neg hc, if_neg hc]

/-- With less fuel than `Packs` the reconstruction does not finish. -/
theorem reconstruct_short {S : List Int} {limit : Int} {dp : List state} (h : Inv S limit dp) :
    ∀ (fuel : Nat) (cur : Int) (counts : CountMap), 0 ≤ cur → cur ≤ limit →
      (rd dp cur).OK = true → (fuel : Int) < (rd dp cur).Packs →
      reconstruct dp fuel cur counts = .error .outOfFuel := by
  intro fuel
  induction fuel with
  | zero =>
    intro cur counts h0 hl hok hf
    have hc : cur > 0 := by
      by_contra hc
      have hc0 : cur = 0 := by omega
      rw [hc0, h.zeroPacks] at hf
      simp at hf
    unfold reconstruct
    rw [if_pos hc]
  | succ n ih =>
    intro cur counts h0 hl hok hf
    have hc : cur > 0 := by
      by_contra hc
      have hc0 : cur = 0 := by omega
      rw [hc0, h.zeroPacks] at hf
      push_cast at hf
      omega
    have e := h.back_eq hc hl hok
    obtain ⟨_, b2, b3, b4, b5, _⟩ := h.back cur hc hl hok
    unfold reconstruct
    rw [if_pos hc, index_rd dp cur h0 (by have := h.len; omega)]
    simp only [bind, Except.bind]
    push_cast at hf
    exact ih _ _ (by omega) (by omega) b5 (by omega)

theorem Inv.walk_length {S : List Int} {limit : Int} {dp : List state} (h : Inv S limit dp)
    {u : Int} (h0 : 0 ≤ u) (hl : u ≤ limit) (hok : (rd dp u).OK = true) :
    ((walk dp u.toNat u).length : Int) = (rd dp u).Packs := by
  obtain ⟨_, _, w2, w3, w4⟩ := reconstruct_walk h u.toNat u [] h0 hl hok le_rfl
  have := (h.opt _ w2 (by omega)).2
  rw [w3] at this
  have e : (packsOf dp u.toNat u).length = (walk dp u.toNat u).length := by
    simp [packsOf]
  rw [e] at this w4
  omega

/-! ## The tie-break of the table -/

/-- The effect of the loop body in closed form. -/
theorem fillStep_eq {limit : Int} {dp : List state} (hlen : (dp.length : Int) = limit + 1)
    {s t : Int} (hs : 0 < s) (hst : s ≤ t) (htl : t ≤ limit) :
    fillStep s t dp = .ok
      (if (rd dp (t - s)).OK = true ∧
          ((rd dp t).OK = true → (rd dp (t - s)).Packs + 1 < (rd dp t).Packs)
        then dp.set t.toNat ⟨true, (rd dp (t - s)).Packs + 1, t - s, s⟩ else dp) := by
  have i1 : index dp (t - s) = .ok (rd dp (t - s)) := index_rd dp _ (by omega) (by omega)
  have i2 : index dp t = .ok (rd dp t) := index_rd dp _ (by omega) (by omega)
  unfold fillStep
  rw [i1]
  simp only [bind, Except.bind, pure, Except.pure]
  by_cases hok : (rd dp (t - s)).OK = true
  · rw [if_pos hok, i2]
    simp only
    by_cases hw : (!(rd dp t).OK || decide ((rd dp (t - s)).Packs + 1 < (rd dp t).Packs)) = true
    · rw [if_pos hw, assign_ok dp t _ (by omega) (by omega), if_pos]
      refine ⟨hok, fun htok => ?_⟩
      simpa [htok] using hw
    · rw [if_neg hw, if_neg]
      rintro ⟨_, h2⟩
      apply hw
      by_cases htok : (rd dp t).OK = true
      · simpa [htok] using h2 htok
      · simp [htok]
  · rw [if_neg hok, if_neg (fun h => hok h.1)]

theorem Tie.toTieMid {S : List Int} {s limit : Int} {dp : List state}
    (hS : ∀ x ∈ s :: S, 0 < x) (h : Tie S limit dp) : TieMid S s limit s dp where
  wit := fun u h0 h1 hok => by
    obtain ⟨l, a, b⟩ := h.wit u h0 h1 hok
    exact ⟨l, fun x hx => List.mem_cons_of_mem _ (a x hx), b⟩
  low := fun u h0 h1 hok l hl hsum hlen hc => by
    have hns : s ∉ l := by
      rcases hc with hc | hc
      · intro hmem
        have := le_sum_of_mem (Over.pos hS hl) hmem
        omega
      · exact hc
    refine h.low u h0 h1 hok l (fun x hx => ?_) hsum hlen
    rcases List.mem_cons.1 (hl x hx) with rfl | hx'
    · exact absurd hx hns
    · exact hx'

theorem TieMid.toTie {S : List Int} {s limit t : Int} {dp : List state}
    (ht : limit < t) (h : TieMid S s limit t dp) : Tie (s :: S) limit dp where
  wit := h.wit
  low := fun u h0 h1 hok l hl hsum hlen => h.low u h0 h1 hok l hl hsum hlen (Or.inl (by omega))

theorem Mid.size_le {S : List Int} {s limit t : Int} {dp : List state}
    (h : Mid S s limit t dp) (hmax : ∀ y ∈ S, y ≤ s) {u : Int} (h0 : 0 < u) (h1 : u ≤ limit)
    (hok : (rd dp u).OK = true) : (rd dp u).Size ≤ s := by
  obtain ⟨b1, _⟩ := h.back u h0 h1 hok
  rcases List.mem_cons.1 b1 with e | e
  · omega
  · exact hmax _ e

theorem TieMid.stay {S : List Int} {s limit t : Int} {dp : List state}
    (hm : Mid S s limit t dp) (h : TieMid S s limit t dp) (hmax : ∀ y ∈ S, y ≤ s) :
    TieMid S s limit (t + 1) dp where
  wit := h.wit
  low := fun u h0 h1 hok l hl hsum hlen hc => by
    by_cases hs : s ∈ l
    · by_cases hut : u < t
      · exact h.low u h0 h1 hok l hl hsum hlen (Or.inl hut)
      · exact ⟨s, hs, hm.size_le hmax h0 h1 hok⟩
    · exact h.low u h0 h1 hok l hl hsum hlen (Or.inr hs)

theorem TieMid.store {S : List Int} {s limit t : Int} {dp : List state}
    (hS : ∀ x ∈ s :: S, 0 < x) (hmax : ∀ y ∈ S, y ≤ s) (hm : Mid S s limit t dp)
    (h : TieMid S s limit t dp) (hst : s ≤ t) (htl : t ≤ limit)
    (hok : (rd dp (t - s)).OK = true)
    (hc : (rd dp t).OK = true → (rd dp (t - s)).Packs + 1 < (rd dp t).Packs) :
    TieMid S s limit (t + 1)
      (dp.set t.toNat ⟨true, (rd dp (t - s)).Packs + 1, t - s, s⟩) := by
  have hspos : 0 < s := hS s (List.mem_cons_self _ _)
  have hlen := hm.len
  have ht0 : 0 ≤ t := by omega
  have htlen : t < dp.length := by omega
  have hne : ∀ u : Int, 0 ≤ u → u ≠ t →
      rd (dp.set t.toNat ⟨true, (rd dp (t - s)).Packs + 1, t - s, s⟩) u = rd dp u :=
    fun u hu hut => rd_set_ne dp t u _ ht0 hu (Ne.symm hut)
  have heq : rd (dp.set t.toNat ⟨true, (rd dp (t - s)).Packs + 1, t - s, s⟩) t =
      ⟨true, (rd dp (t - s)).Packs + 1, t - s, s⟩ := rd_set_eq dp t _ ht0 htlen
  constructor
  · intro u h0 h1 huok
    by_cases hut : u = t
    · subst hut
      rw [heq]
      simp only
      by_cases hz : u - s = 0
      · refine ⟨[s], ?_, ?_, ?_, List.mem_singleton_self s, ?_⟩
        · intro x hx
          rw [List.mem_singleton] at hx
          subst hx
          exact List.mem_cons_self _ _
        · simp only [List.sum_cons, List.sum_nil, add_zero]; omega
        · rw [hz, hm.zeroPacks]; simp
        · intro x hx
          rw [List.mem_singleton] at hx
          omega
      · obtain ⟨lw, a, b, c, _, e⟩ := h.wit (u - s) (by omega) (by omega) hok
        have hsz : (rd dp (u - s)).Size ≤ s := hm.size_le hmax (by omega) (by omega) hok
        refine ⟨s :: lw, ?_, ?_, ?_, List.mem_cons_self _ _, ?_⟩
        · intro x hx
          rcases List.mem_cons.1 hx with rfl | hx
          · exact List.mem_cons_self _ _
          · exact a x hx
        · rw [List.sum_cons, b]; omega
        · rw [List.length_cons]; push_cast; omega
        · intro x hx
          rcases List.mem_cons.1 hx with rfl | hx
          · exact le_rfl
          · have := e x hx
            omega
    · rw [hne u h0.le hut] at huok ⊢
      exact h.wit u h0 h1 huok
  · intro u h0 h1 huok l hl hsum hlen' hc'
    by_cases hut : u = t
    · subst hut
      rw [heq] at hlen' ⊢
      simp only at hlen' ⊢
      by_cases hs : s ∈ l
      · exact ⟨s, hs, le_rfl⟩
      · have := hm.opt l hl (by omega) (Or.inr hs)
        rw [hsum] at this
        have := hc this.1
        omega
    · rw [hne u h0.le hut] at huok hlen' ⊢
      refine h.low u h0 h1 huok l hl hsum hlen' ?_
      rcases hc' with hc' | hc'
      · left; omega
      · right; exact hc'

theorem fillStep_tie {S : List Int} {s limit t : Int} {dp dp' : List state}
    (hS : ∀ x ∈ s :: S, 0 < x) (hmax : ∀ y ∈ S, y ≤ s) (hm : Mid S s limit t dp)
    (h : TieMid S s limit t dp) (hst : s ≤ t) (htl : t ≤ limit)
    (e : fillStep s t dp = .ok dp') : TieMid S s limit (t + 1) dp' := by
  have hspos : 0 < s := hS s (List.mem_cons_self _ _)
  rw [fillStep_eq hm.len hspos hst htl] at e
  have e' := Except.ok.inj e
  subst e'
  split
  · rename_i hw
    exact h.store hS hmax hm hst htl hw.1 hw.2
  · exact h.stay hm hmax

theorem fillLoop_tie {S : List Int} {s limit : Int} (hS : ∀ x ∈ s :: S, 0 < x)
    (hmax : ∀ y ∈ S, y ≤ s) :
    ∀ (fuel : Nat) (t : Int) (dp dp' : List state), Mid S s limit t dp →
      TieMid S s limit t dp → s ≤ t → (limit + 1 - t).toNat ≤ fuel →
      fillLoop s limit fuel t dp = .ok dp' → Tie (s :: S) limit dp' := by
  intro fuel
  induction fuel with
  | zero =>
    intro t dp dp' _ h _ hf e
    unfold fillLoop at e
    rw [if_neg (by omega)] at e
    have e' := Except.ok.inj e
    subst e'
    exact h.toTie (by omega)
  | succ n ih =>
    intro t dp dp' hm h hst hf e
    unfold fillLoop at e
    by_cases htl : t ≤ limit
    · rw [if_pos htl] at e
      obtain ⟨dp1, e1, h1⟩ := fillStep_spec hS hm hst htl
      rw [e1] at e
      simp only [bind, Except.bind] at e
      exact ih (t + 1) dp1 dp' h1 (fillStep_tie hS hmax hm h hst htl e1) (by omega)
        (by omega) e
    · rw [if_neg htl] at e
      have e' := Except.ok.inj e
      subst e'
      exact h.toTie (by omega)

theorem fillAll_tie {limit : Int} :
    ∀ (sizes S : List Int) (dp dp' : List state), (∀ x ∈ sizes, 0 < x) → (∀ x ∈ S, 0 < x) →
      sizes.Sorted (· ≤ ·) → (∀ y ∈ S, ∀ x ∈ sizes, y ≤ x) →
      Inv S limit dp → Tie S limit dp → fillAll limit sizes dp = .ok dp' →
      Tie (sizes.reverse ++ S) limit dp' := by
  intro sizes
  induction sizes with
  | nil =>
    intro S dp dp' _ _ _ _ _ h e
    unfold fillAll at e
    have e' := Except.ok.inj e
    subst e'
    simpa using h
  | cons s rest ih =>
    intro S dp dp' hsz hS hsort hle hinv h e
    have hS1 : ∀ x ∈ s :: S, 0 < x := by
      intro x hx
      rcases List.mem_cons.1 hx with rfl | hx
      · exact hsz _ (List.mem_cons_self _ _)
      · exact hS x hx
    have hmax : ∀ y ∈ S, y ≤ s := fun y hy => hle y hy s (List.mem_cons_self _ _)
    obtain ⟨dp1, e1, h1⟩ :=
      fillLoop_spec hS1 (limit + 1 - s).toNat s dp (hinv.toMid hS1) le_rfl le_rfl
    have t1 : Tie (s :: S) limit dp1 :=
      fillLoop_tie hS1 hmax (limit + 1 - s).toNat s dp dp1 (hinv.toMid hS1) (h.toTieMid hS1)
        le_rfl le_rfl e1
    unfold fillAll at e
    rw [e1] at e
    simp only [bind, Except.bind] at e
    have hsort' := List.sorted_cons.1 hsort
    have := ih (s :: S) dp1 dp' (fun x hx => hsz x (List.mem_cons_of_mem _ hx)) hS1
      hsort'.2 (by
        intro y hy x hx
        rcases List.mem_cons.1 hy with rfl | hy
        · exact hsort'.1 x hx
        · exact hle y hy x (List.mem_cons_of_mem _ hx)) h1 t1 e
    simpa [List.reverse_cons, List.append_assoc] using this

theorem Tie.of_same {S S' : List Int} {limit : Int} {dp : List state}
    (h : Tie S limit dp) (hSS : ∀ x, x ∈ S ↔ x ∈ S') : Tie S' limit dp where
  wit := fun u h0 h1 hok => by
    obtain ⟨l, a, b⟩ := h.wit u h0 h1 hok
    exact ⟨l, fun x hx => (hSS x).1 (a x hx), b⟩
  low := fun u h0 h1 hok l hl hsum hlen =>
    h.low u h0 h1 hok l (fun x hx => (hSS x).2 (hl x hx)) hsum hlen

theorem Tie.start {limit : Int} :
    Tie [] limit ((List.replicate (limit + 1).toNat state.zero).set (0 : Int).toNat
      ⟨true, 0, -1, 0⟩) := by
  have hno : ∀ u : Int, 0 < u →
      ¬ (rd ((List.replicate (limit + 1).toNat state.zero).set (0 : Int).toNat
        ⟨true, 0, -1, 0⟩) u).OK = true := by
    intro u hu0 hok
    rw [rd_set_ne _ 0 u _ le_rfl hu0.le (by omega), rd_replicate] at hok
    exact absurd hok (by simp [state.zero])
  exact ⟨fun u h0 _ hok => absurd hok (hno u h0), fun u h0 _ hok => absurd hok (hno u h0)⟩

theorem buildTable_tie {limit : Int} (hl : 0 ≤ limit) (hb : limit + 1 ≤ maxLen)
    (sizes : List Int) (hsz : ∀ x ∈ sizes, 0 < x) (hsort : sizes.Sorted (· ≤ ·))
    {dp : List state} (e : buildTable limit sizes = .ok dp) : Tie sizes limit dp := by
  unfold buildTable make at e
  rw [wrap_len hl hb, if_neg (by omega)] at e
  simp only [bind, Except.bind] at e
  rw [assign_ok _ 0 _ le_rfl (by rw [List.length_replicate]; omega)] at e
  simp only at e
  have := fillAll_tie sizes [] _ dp hsz (by simp) hsort (by simp) (Inv.init hl) Tie.start e
  exact this.of_same (by simp)

/-- Along a back-pointer the chosen size does not grow. -/
theorem size_prev_le {S : List Int} {limit : Int} {dp : List state} (hinv : Inv S limit dp)
    (htie : Tie S limit dp) {u : Int} (h0 : 0 < u) (hl : u ≤ limit)
    (hok : (rd dp u).OK = true) (hp : 0 < (rd dp u).Prev) :
    (rd dp (rd dp u).Prev).Size ≤ (rd dp u).Size := by
  obtain ⟨_, b2, b3, b4, b5, _⟩ := hinv.back u h0 hl hok
  have e := hinv.back_eq h0 hl hok
  obtain ⟨l, a, b, c, d, f⟩ := htie.wit u h0 hl hok
  have hsumE : (rd dp u).Size + (l.erase (rd dp u).Size).sum = l.sum := List.sum_erase d
  have hlenE : (l.erase (rd dp u).Size).length = l.length - 1 := List.length_erase_of_mem d
  have hlpos : 0 < l.length := List.length_pos_of_mem d
  obtain ⟨x, hx, hxle⟩ := htie.low (rd dp u).Prev hp (by omega) b5 (l.erase (rd dp u).Size)
    (fun x hx => a x (List.mem_of_mem_erase hx)) (by omega) (by rw [hlenE]; omega)
  have := f x (List.mem_of_mem_erase hx)
  omega

theorem walk_zero (dp : List state) (fuel : Nat) : walk dp fuel 0 = [] := by
  cases fuel with
  | zero => rfl
  | succ n => rw [walk, if_neg (by omega)]

/-- Every pack the reconstruction counts is at most the size chosen for the
total it starts from. -/
theorem packsOf_le {S : List Int} {limit : Int} {dp : List state} (hinv : Inv S limit dp)
    (htie : Tie S limit dp) :
    ∀ (fuel : Nat) (cur : Int), 0 < cur → cur ≤ limit → (rd dp cur).OK = true →
      ∀ x ∈ packsOf dp fuel cur, x ≤ (rd dp cur).Size := by
  intro fuel
  induction fuel with
  | zero =>
    intro cur _ _ _ x hx
    simp [packsOf, walk] at hx
  | succ n ih =>
    intro cur h0 hl hok x hx
    obtain ⟨_, b2, b3, b4, b5, _⟩ := hinv.back cur h0 hl hok
    have hp : packsOf dp (n + 1) cur = (rd dp cur).Size :: packsOf dp n (rd dp cur).Prev := by
      simp only [packsOf, walk, if_pos h0, List.map_cons]
    rw [hp] at hx
    rcases List.mem_cons.1 hx with rfl | hx
    · exact le_rfl
    · by_cases hz : (rd dp cur).Prev = 0
      · rw [hz] at hx
        simp [packsOf, walk_zero] at hx
      · have hpp : 0 < (rd dp cur).Prev := by omega
        have h1 := ih (rd dp cur).Prev hpp (by omega) b5 x hx
        have h2 := size_prev_le hinv htie h0 hl hok hpp
        omega

/-! ## Two tables over the same catalog -/

theorem state_eq (a b : state) (h1 : a.OK = b.OK) (h2 : a.Packs = b.Packs)
    (h3 : a.Prev = b.Prev) (h4 : a.Size = b.Size) : a = b := by
  cases a
  cases b
  simp only at h1 h2 h3 h4
  subst h1 h2 h3 h4
  rfl

/-- A marked entry is determined by the catalog alone: tables of two limits agree
on every marked total that both hold. -/
theorem table_unique {S : List Int} {L1 L2 : Int} {dp1 dp2 : List state}
    (i1 : Inv S L1 dp1) (t1 : Tie S L1 dp1) (i2 : Inv S L2 dp2) (t2 : Tie S L2 dp2)
    {u : Int} (h0 : 0 < u) (hl1 : u ≤ L1) (hl2 : u ≤ L2) (hok : (rd dp1 u).OK = true) :
    rd dp1 u = rd dp2 u := by
  have hok2 : (rd dp2 u).OK = true := (i2.reach_iff h0.le hl2).2 ((i1.reach_iff h0.le hl1).1 hok)
  obtain ⟨l1, a1, b1, c1⟩ := i1.exists_list h0.le hl1 hok
  obtain ⟨l2, a2, b2, c2⟩ := i2.exists_list h0.le hl2 hok2
  have p12 := (i1.opt l2 a2 (by omega)).2
  have p21 := (i2.opt l1 a1 (by omega)).2
  rw [b2] at p12
  rw [b1] at p21
  have hP : (rd dp1 u).Packs = (rd dp2 u).Packs := by omega
  obtain ⟨w1, x1, y1, z1, m1, n1⟩ := t1.wit u h0 hl1 hok
  obtain ⟨w2, x2, y2, z2, m2, n2⟩ := t2.wit u h0 hl2 hok2
  obtain ⟨q1, hq1, hq1'⟩ := t1.low u h0 hl1 hok w2 x2 y2 (by omega)
  obtain ⟨q2, hq2, hq2'⟩ := t2.low u h0 hl2 hok2 w1 x1 y1 (by omega)
  have := n2 q1 hq1
  have := n1 q2 hq2
  have hSz : (rd dp1 u).Size = (rd dp2 u).Size := by omega
  obtain ⟨_, _, _, e1, _, _⟩ := i1.back u h0 hl1 hok
  obtain ⟨_, _, _, e2, _, _⟩ := i2.back u h0 hl2 hok2
  exact state_eq _ _ (by rw [hok, hok2]) hP (by omega) hSz

theorem reconstruct_congr {S : List Int} {L1 L2 : Int} {dp1 dp2 : List state}
    (i1 : Inv S L1 dp1) (hlen2 : (dp2.length : Int) = L2 + 1) (hL : L1 ≤ L2)
    (heq : ∀ u, 0 < u → u ≤ L1 → (rd dp1 u).OK = true → rd dp1 u = rd dp2 u) :
    ∀ (fuel : Nat) (cur : Int) (counts : CountMap), 0 ≤ cur → cur ≤ L1 →
      (rd dp1 cur).OK = true →
      reconstruct dp1 fuel cur counts = reconstruct dp2 fuel cur counts := by
  intro fuel
  induction fuel with
  | zero =>
    intro cur counts _ _ _
    unfold reconstruct
    rfl
  | succ n ih =>
    intro cur counts h0 hl hok
    unfold reconstruct
    by_cases hc : cur > 0
    · obtain ⟨_, b2, b3, b4, b5, _⟩ := i1.back cur hc hl hok
      rw [if_pos hc, if_pos hc, index_rd dp1 cur h0 (by have := i1.len; omega),
        index_rd dp2 cur h0 (by omega), ← heq cur hc hl hok]
      simp only [bind, Except.bind]
      exact ih _ _ (by omega) (by omega) b5
    · rw [if_neg hc, if_neg hc]

/-! ## The stages of a call -/

/-- A table that was built has a limit `>= 0` whose successor fits `makeslice`. -/
theorem buildTable_bounds {limit : Int} {sizes : List Int} {dp : List state}
    (h0 : -9223372036854775808 ≤ limit) (h1 : limit < 9223372036854775808)
    (e : buildTable limit sizes = .ok dp) : 0 ≤ limit ∧ limit + 1 ≤ maxLen := by
  unfold buildTable make at e
  by_cases hc : wrap (limit + 1) < 0 ∨ maxLen < wrap (limit + 1)
  · rw [if_pos hc] at e
    cases e
  · rw [if_neg hc] at e
    simp only [bind, Except.bind] at e
    unfold assign at e
    by_cases hlen : (0 : Int) ≤ 0 ∧
        (0 : Int) < (List.replicate (wrap (limit + 1)).toNat state.zero).length
    · have h2 := hlen.2
      rw [List.length_replicate] at h2
      unfold wrap maxLen at *
      omega
    · rw [if_neg hlen] at e
      cases e

/-- A limit outside the bound makes `make` abort. -/
theorem buildTable_refused {limit : Int} (sizes : List Int)
    (h0 : -9223372036854775808 ≤ limit) (h1 : limit < 9223372036854775808)
    (hne : limit ≠ -1) (hb : ¬ (0 ≤ limit ∧ limit + 1 ≤ maxLen)) :
    buildTable limit sizes = .error .lenOutOfRange := by
  unfold buildTable make
  rw [if_pos (by unfold wrap maxLen at *; omega)]
  rfl

/-- The catalog after sanitising and sorting, and its last element. -/
theorem catalog_spec (sizes : List Int) (hne : sizes ≠ []) (hpos : ∀ x ∈ sizes, 0 < x) :
    ∃ (b : List Int) (maxS : Int), sanitize sizes [] [] = some b ∧
      index (sortInts b) (((sortInts b).length : Int) - 1) = .ok maxS ∧
      (∀ x, x ∈ sortInts b ↔ x ∈ sizes) ∧ maxS ∈ sizes ∧ (∀ x ∈ sizes, x ≤ maxS) := by
  obtain ⟨b, hb, _, hbm⟩ := sanitize_some sizes [] [] hpos (by simp) List.nodup_nil
  have hbm' : ∀ x, x ∈ sortInts b ↔ x ∈ sizes := by
    intro x; rw [sortInts_mem, hbm]; simp
  have hlen : 0 < (sortInts b).length := by
    obtain ⟨x, hx⟩ := List.exists_mem_of_ne_nil sizes hne
    exact List.length_pos_of_mem ((hbm' x).2 hx)
  obtain ⟨maxS, hget, hidx⟩ :=
    index_ok (sortInts b) (((sortInts b).length : Int) - 1) (by omega) (by omega)
  have hnat : (((sortInts b).length : Int) - 1).toNat = (sortInts b).length - 1 := by omega
  rw [hnat] at hget
  obtain ⟨hmem, hmax⟩ := sorted_last_max (sortInts_sorted b) hget
  exact ⟨b, maxS, hb, hidx, hbm', (hbm' _).1 hmem, fun x hx => hmax x ((hbm' x).2 hx)⟩

/-- The largest size is unique. -/
theorem max_unique {sizes : List Int} {m1 m2 : Int} (h1 : m1 ∈ sizes)
    (g1 : ∀ x ∈ sizes, x ≤ m1) (h2 : m2 ∈ sizes) (g2 : ∀ x ∈ sizes, x ≤ m2) : m1 = m2 :=
  le_antisymm (g2 _ h1) (g1 _ h2)

/-- A valid call either aborts while building the table, or reaches the selection
loop with a table that satisfies the invariants, and then returns: the
defensive error when nothing was selected, the reconstructed map otherwise. -/
theorem Solve_stages (items : Int) (sizes : List Int) (hi : 0 < items) (hne : sizes ≠ [])
    (hpos : ∀ x ∈ sizes, 0 < x) :
    ∃ (sb : List Int) (maxS : Int),
      (∃ b, sanitize sizes [] [] = some b ∧ sb = sortInts b) ∧
      index sb ((sb.length : Int) - 1) = .ok maxS ∧
      (∀ x, x ∈ sb ↔ x ∈ sizes) ∧ sb.Sorted (· ≤ ·) ∧ maxS ∈ sizes ∧ (∀ x ∈ sizes, x ≤ maxS) ∧
      ((∃ e, buildTable (wrap (items + maxS - 1)) sb = .error e ∧
          Solve items sizes = .error e) ∨
       (∃ (dp : List state) (best : Int × Int), Reach items sizes sb maxS dp best ∧
          0 ≤ wrap (items + maxS - 1) ∧ wrap (items + maxS - 1) + 1 ≤ maxLen ∧
          Inv sizes (wrap (items + maxS - 1)) dp ∧ Tie sizes (wrap (items + maxS - 1)) dp ∧
          FirstHit (wrap (items + maxS - 1)) dp items best ∧
          ((best.1 = -1 ∧ Solve items sizes = .ok ⟨none, 0, some errNoSolution⟩) ∨
           (best.1 ≠ -1 ∧
            reconstruct dp best.1.toNat best.1 [] =
              .ok ((packsOf dp best.1.toNat best.1).foldl CountMap.incr []) ∧
            Solve items sizes =
              .ok ⟨some ((packsOf dp best.1.toNat best.1).foldl CountMap.incr []),
                best.1, none⟩)))) := by
  obtain ⟨b, maxS, hb, hidx, hbm, hm, hmax⟩ := catalog_spec sizes hne hpos
  have hbpos : ∀ x ∈ sortInts b, 0 < x := fun x hx => hpos x ((hbm x).1 hx)
  have hsolve : Solve items sizes = solveSorted items (sortInts b) := by
    unfold Solve
    rw [if_neg (by omega), if_neg (by
      intro h0
      exact hne (List.length_eq_zero.1 h0)), hb]
  refine ⟨sortInts b, maxS, ⟨b, hb, rfl⟩, hidx, hbm, sortInts_sorted b, hm, hmax, ?_⟩
  obtain ⟨r0, r1⟩ := wrap_range (items + maxS - 1)
  cases hbt : buildTable (wrap (items + maxS - 1)) (sortInts b) with
  | error e =>
    left
    refine ⟨e, rfl, ?_⟩
    rw [hsolve]
    unfold solveSorted
    simp only [bind, Except.bind, pure, Except.pure]
    rw [hidx]
    simp only
    rw [hbt]
  | ok dp =>
    right
    obtain ⟨hl, hbd⟩ := buildTable_bounds r0 r1 hbt
    obtain ⟨dp', hdp', hinv0⟩ := buildTable_spec hl hbd (sortInts b) hbpos
    rw [hbt] at hdp'
    have hdd := Except.ok.inj hdp'
    subst hdd
    have hinv : Inv sizes (wrap (items + maxS - 1)) dp := hinv0.congr hbm
    have htie : Tie sizes (wrap (items + maxS - 1)) dp :=
      (buildTable_tie hl hbd (sortInts b) hbpos (sortInts_sorted b) hbt).of_same hbm
    obtain ⟨best, hbest, hfh⟩ :=
      chooseLoop_spec hinv.len (wrap (items + maxS - 1) + 1 - items).toNat items 0 hi.le le_rfl
    refine ⟨dp, best, ⟨⟨b, hb, rfl⟩, hidx, hbt, hbest⟩, hl, hbd, hinv, htie, hfh, ?_⟩
    by_cases hb1 : best.1 = -1
    · left
      refine ⟨hb1, ?_⟩
      rw [hsolve]
      unfold solveSorted
      simp only [bind, Except.bind, pure, Except.pure]
      rw [hidx]
      simp only
      rw [hbt]
      simp only
      rw [hbest]
      simp only
      rw [if_pos hb1]
    · right
      have hf : items ≤ best.1 ∧ best.1 ≤ wrap (items + maxS - 1) ∧
          (rd dp best.1).OK = true := by
        rcases hfh with ⟨f1, _⟩ | ⟨f1, f2, f3, _, _⟩
        · exact absurd f1 hb1
        · exact ⟨f1, f2, f3⟩
      obtain ⟨hrec, _⟩ :=
        reconstruct_walk hinv best.1.toNat best.1 [] (by omega) hf.2.1 hf.2.2 le_rfl
      refine ⟨hb1, hrec, ?_⟩
      rw [hsolve]
      unfold solveSorted
      simp only [bind, Except.bind, pure, Except.pure]
      rw [hidx]
      simp only
      rw [hbt]
      simp only
      rw [hbest]
      simp only
      rw [if_neg hb1, hrec]

/-- For `int` operands a limit that came out `>= 0` was computed without wrap. -/
theorem limit_exact {items maxS : Int} (hi : 0 < items) (hm : 0 < maxS)
    (hI : items ≤ MaxInt) (hM : maxS ≤ MaxInt) (h0 : 0 ≤ wrap (items + maxS - 1)) :
    wrap (items + maxS - 1) = items + maxS - 1 := by
  unfold wrap MaxInt at *
  omega

/-- For `int` operands the wrapped limit is never `-1`. -/
theorem limit_ne {items maxS : Int} (hi : 0 < items) (hm : 0 < maxS)
    (hI : items ≤ MaxInt) (hM : maxS ≤ MaxInt) : wrap (items + maxS - 1) ≠ -1 := by
  unfold wrap MaxInt at *
  omega

/-- With the exact limit some multiple of the largest size lies in the scanned
range, so the selection loop finds a total. -/
theorem found_of_exact {items maxS : Int} {sizes : List Int} {dp : List state}
    {best : Int × Int} (hi : 0 < items) (hm : maxS ∈ sizes) (hmpos : 0 < maxS)
    (hinv : Inv sizes (items + maxS - 1) dp)
    (hfh : FirstHit (items + maxS - 1) dp items best) : best.1 ≠ -1 := by
  obtain ⟨k, hk1, hk2⟩ := exists_multiple hi hmpos
  have hrep : Over sizes (List.replicate k maxS) := by
    intro x hx
    rw [List.eq_of_mem_replicate hx]
    exact hm
  have hrsum : (List.replicate k maxS).sum = k * maxS := by
    rw [List.sum_replicate, nsmul_eq_mul]
  have hreach := (hinv.opt _ hrep (by rw [hrsum]; exact hk2)).1
  rw [hrsum] at hreach
  rcases hfh with ⟨_, hnone⟩ | ⟨f1, _⟩
  · have := hnone _ hk1 hk2
    rw [hreach] at this
    exact absurd this (by simp)
  · omega

/-- What a returned result without error says about the call that produced it. -/
theorem Solve_ok (items : Int) (sizes : List Int) (r : SolveResult)
    (h : Solve items sizes = .ok r) (he : r.err = none) :
    0 < items ∧ sizes ≠ [] ∧ (∀ x ∈ sizes, 0 < x) ∧
    ∃ (sb : List Int) (maxS : Int) (dp : List state) (best : Int × Int),
      Reach items sizes sb maxS dp best ∧
      (∀ x, x ∈ sb ↔ x ∈ sizes) ∧ maxS ∈ sizes ∧ (∀ x ∈ sizes, x ≤ maxS) ∧
      0 ≤ wrap (items + maxS - 1) ∧ wrap (items + maxS - 1) + 1 ≤ maxLen ∧
      Inv sizes (wrap (items + maxS - 1)) dp ∧ Tie sizes (wrap (items + maxS - 1)) dp ∧
      items ≤ best.1 ∧ best.1 ≤ wrap (items + maxS - 1) ∧ (rd dp best.1).OK = true ∧
      (∀ u, items ≤ u → u < best.1 → (rd dp u).OK = false) ∧
      reconstruct dp best.1.toNat best.1 [] =
        .ok ((packsOf dp best.1.toNat best.1).foldl CountMap.incr []) ∧
      r = ⟨some ((packsOf dp best.1.toNat best.1).foldl CountMap.incr []), best.1, none⟩ := by
  rcases Solve_cases items sizes with h1 | h1 | h1 | ⟨hi, hne, hpos⟩
  · rw [h1] at h; cases h; simp at he
  · rw [h1] at h; cases h; simp at he
  · rw [h1] at h; cases h; simp at he
  refine ⟨hi, hne, hpos, ?_⟩
  obtain ⟨sb, maxS, _, _, hbm, _, hm, hmax, hcase⟩ := Solve_stages items sizes hi hne hpos
  rcases hcase with ⟨e, _, he'⟩ | ⟨dp, best, hreach, hl, hbd, hinv, htie, hfh, hres⟩
  · rw [he'] at h; cases h
  rcases hres with ⟨_, hS⟩ | ⟨hb1, hrec, hS⟩
  · rw [hS] at h; cases h; simp at he
  rcases hfh with ⟨f1, _⟩ | ⟨f1, f2, f3, _, f5⟩
  · exact absurd f1 hb1
  rw [hS] at h
  exact ⟨sb, maxS, dp, best, hreach, hbm, hm, hmax, hl, hbd, hinv, htie, f1, f2, f3, f5, hrec,
    (Except.ok.inj h).symm⟩

/-- A call on `int` arguments either aborts in `make` or returns without error,
and then its limit was computed without wrap and its table fits the bound. -/
theorem Solve_int (items : Int) (sizes : List Int) (hi : 0 < items) (hne : sizes ≠ [])
    (hpos : ∀ x ∈ sizes, 0 < x) (hI : items ≤ MaxInt) (hM : ∀ x ∈ sizes, x ≤ MaxInt) :
    ∃ maxS, maxS ∈ sizes ∧ (∀ x ∈ sizes, x ≤ maxS) ∧
      ((Solve items sizes = .error .lenOutOfRange ∧ maxLen < items + maxS) ∨
       (∃ r, Solve items sizes = .ok r ∧ r.err = none ∧ items + maxS ≤ maxLen ∧
          wrap (items + maxS - 1) = items + maxS - 1)) := by
  obtain ⟨sb, maxS, _, _, hbm, _, hm, hmax, hcase⟩ := Solve_stages items sizes hi hne hpos
  have hmpos := hpos maxS hm
  have hMm := hM maxS hm
  obtain ⟨r0, r1⟩ := wrap_range (items + maxS - 1)
  refine ⟨maxS, hm, hmax, ?_⟩
  rcases hcase with ⟨e, hbt, he'⟩ | ⟨dp, best, _, hl, hbd, hinv, _, hfh, hres⟩
  · left
    have hnb : ¬ (0 ≤ wrap (items + maxS - 1) ∧ wrap (items + maxS - 1) + 1 ≤ maxLen) := by
      rintro ⟨a, b⟩
      obtain ⟨dp, hdp, _⟩ :=
        buildTable_spec a b sb (fun x hx => hpos x ((hbm x).1 hx))
      rw [hdp] at hbt
      cases hbt
    have := buildTable_refused sb r0 r1 (limit_ne hi hmpos hI hMm) hnb
    rw [this] at hbt
    have hee := Except.error.inj hbt
    rw [he', ← hee]
    refine ⟨rfl, ?_⟩
    unfold wrap MaxInt maxLen at *
    omega
  · right
    have hex := limit_exact hi hmpos hI hMm hl
    rw [hex] at hinv hfh hbd
    have hb1 := found_of_exact hi hm hmpos hinv hfh
    rcases hres with ⟨hb, _⟩ | ⟨_, _, hS⟩
    · exact absurd hb hb1
    · exact ⟨_, hS, rfl, by omega, hex⟩

/-- A valid call whose table fits the bound of `makeslice` returns without error. -/
theorem Solve_fits (items : Int) (sizes : List Int) (hi : 0 < items) (hne : sizes ≠ [])
    (hpos : ∀ x ∈ sizes, 0 < x) (maxS : Int) (hm : maxS ∈ sizes)
    (hmax : ∀ x ∈ sizes, x ≤ maxS) (hfit : items + maxS ≤ maxLen) :
    ∃ r, Solve items sizes = .ok r ∧ r.err = none := by
  have hmpos := hpos maxS hm
  have hI : items ≤ MaxInt := by unfold maxLen at hfit; unfold MaxInt; omega
  have hM : ∀ x ∈ sizes, x ≤ MaxInt := by
    intro x hx
    have := hmax x hx
    unfold maxLen at hfit
    unfold MaxInt
    omega
  obtain ⟨m', hm', hmax', hcase⟩ := Solve_int items sizes hi hne hpos hI hM
  have hmm := max_unique hm hmax hm' hmax'
  subst hmm
  rcases hcase with ⟨_, hlt⟩ | ⟨r, hS, he, _⟩
  · omega
  · exact ⟨r, hS, he⟩

/-- A returned result without error, in terms of the list of packs met by the
reconstruction walk: the map counts that list, the total is its sum, no list of
sizes sums to less while covering `items`, none with the same sum is shorter,
and among the shortest ones none has a smaller largest pack. -/
theorem Solve_path (items : Int) (sizes : List Int) (r : SolveResult)
    (h : Solve items sizes = .ok r) (he : r.err = none) :
    ∃ path : List Int, r = ⟨some (path.foldl CountMap.incr []), path.sum, none⟩ ∧
      Over sizes path ∧ path ≠ [] ∧ items ≤ path.sum ∧
      (∀ l : List Int, Over sizes l → items ≤ l.sum → path.sum ≤ l.sum) ∧
      (∀ l : List Int, Over sizes l → l.sum = path.sum → path.length ≤ l.length) ∧
      (∀ l : List Int, Over sizes l → l.sum = path.sum → l.length ≤ path.length →
        ∀ k ∈ path, ∃ x ∈ l, k ≤ x) := by
  obtain ⟨hi, _, _, sb, maxS, dp, best, _, _, _, _, hl, _, hinv, htie, f1, f2, f3, f5, _, hr⟩ :=
    Solve_ok items sizes r h he
  have hb0 : 0 < best.1 := by omega
  obtain ⟨_, _, w2, w3, w4⟩ := reconstruct_walk hinv best.1.toNat best.1 [] hb0.le f2 f3 le_rfl
  refine ⟨packsOf dp best.1.toNat best.1, by rw [hr, w3], w2, ?_, by omega, ?_, ?_, ?_⟩
  · intro hnil
    rw [hnil] at w3
    simp at w3
    omega
  · intro l hl' hsum
    rw [w3]
    by_contra hcon
    have hlt : l.sum < best.1 := by omega
    have := (hinv.opt l hl' (by omega)).1
    rw [f5 l.sum hsum hlt] at this
    exact absurd this (by simp)
  · intro l hl' hsum
    have := (hinv.opt l hl' (by omega)).2
    rw [hsum, w3] at this
    have : ((packsOf dp best.1.toNat best.1).length : Int) ≤ l.length := by omega
    exact_mod_cast this
  · intro l hl' hsum hlen k hk
    have hk1 := packsOf_le hinv htie best.1.toNat best.1 hb0 f2 f3 k hk
    have hlen' : (l.length : Int) ≤ (rd dp best.1).Packs := by
      have : (l.length : Int) ≤ (packsOf dp best.1.toNat best.1).length := by exact_mod_cast hlen
      omega
    obtain ⟨x, hx, hxle⟩ := htie.low best.1 hb0 f2 f3 l hl' (by rw [hsum, w3]) hlen'
    exact ⟨x, hx, by omega⟩

theorem foldl_incr_keys_nil (path : List Int) (k : Int) :
    k ∈ (path.foldl CountMap.incr []).keys ↔ k ∈ path := by
  rw [foldl_incr_keys]
  simp [CountMap.keys]

theorem foldl_incr_total_nil (path : List Int) :
    (path.foldl CountMap.incr []).total = path.sum := by
  rw [foldl_incr_total]; simp [CountMap.total]

theorem foldl_incr_packs_nil (path : List Int) :
    (path.foldl CountMap.incr []).packs = path.length := by
  rw [foldl_incr_packs]; simp [CountMap.packs]

/-! ## The contract of `Solve`: results -/

/-- C2, minimality of the pack count: in every result that `Solve` returns without
error the counts of the map add up to at most the length of every list of sizes
whose sum is the returned total; and `Solve(100, [25,10,5])` returns exactly
`{25:4}`. -/
theorem Solve_packs_minimal :
    (∀ (items : Int) (sizes : List Int) (r : SolveResult), Solve items sizes = .ok r →
      r.err = none →
      ∃ m : CountMap, r.counts = some m ∧ m.total = r.total ∧
        ∀ l : List Int, Over sizes l → l.sum = r.total → m.packs ≤ l.length) ∧
    Solve 100 [25, 10, 5] = .ok ⟨some [(25, 4)], 100, none⟩ := by
  refine ⟨fun items sizes r h he => ?_, by decide!⟩
  obtain ⟨path, hr, _, _, _, _, hmin, _⟩ := Solve_path items sizes r h he
  subst hr
  refine ⟨_, rfl, foldl_incr_total_nil path, fun l hl hsum => ?_⟩
  rw [foldl_incr_packs_nil]
  exact_mod_cast hmin l hl hsum

theorem Solve_packs_minimal_witness :
    ∃ m : CountMap, (SolveResult.mk (some [(5, 1), (3, 1)]) 8 none).counts = some m ∧
      m.total = (SolveResult.mk (some [(5, 1), (3, 1)]) 8 none).total ∧
      ∀ l : List Int, Over [3, 5] l →
        l.sum = (SolveResult.mk (some [(5, 1), (3, 1)]) 8 none).total → m.packs ≤ l.length :=
  Solve_packs_minimal.1 7 [3, 5] ⟨some [(5, 1), (3, 1)], 8, none⟩ (by decide) rfl

/-- C3, consistency: in every successful result of `Solve` the sum of
`size * count` over the map is the total, every stored count is at least 1,
every key is one of the input sizes, and no key is stored twice. -/
theorem Solve_consistent (items : Int) (sizes : List Int) (r : SolveResult)
    (h : Solve items sizes = .ok r) (he : r.err = none) :
    ∃ m : CountMap, r.counts = some m ∧ m.total = r.total ∧ (∀ p ∈ m, 1 ≤ p.2) ∧
      (∀ k ∈ m.keys, 1 ≤ m.get k) ∧ (∀ k ∈ m.keys, k ∈ sizes) ∧ m.keys.Nodup := by
  obtain ⟨path, hr, hov, _⟩ := Solve_path items sizes r h he
  subst hr
  refine ⟨_, rfl, foldl_incr_total_nil path, foldl_incr_pos path [] (by simp), ?_, ?_,
    foldl_incr_nodup path [] (by simp [CountMap.keys])⟩
  · intro k hk
    rw [foldl_incr_get]
    have hkp : k ∈ path := (foldl_incr_keys_nil path k).1 hk
    have : 0 < path.count k := List.count_pos_iff.2 hkp
    simp only [CountMap.get, List.lookup, Option.getD_none, zero_add]
    exact_mod_cast this
  · intro k hk
    exact hov k ((foldl_incr_keys_nil path k).1 hk)

theorem Solve_consistent_witness :
    ∃ m : CountMap, (SolveResult.mk (some [(5, 1), (3, 1)]) 8 none).counts = some m ∧
      m.total = (SolveResult.mk (some [(5, 1), (3, 1)]) 8 none).total ∧ (∀ p ∈ m, 1 ≤ p.2) ∧
      (∀ k ∈ m.keys, 1 ≤ m.get k) ∧ (∀ k ∈ m.keys, k ∈ [3, 5]) ∧ m.keys.Nodup :=
  Solve_consistent 7 [3, 5] ⟨some [(5, 1), (3, 1)], 8, none⟩ (by decide) rfl

/-- C9, no partial result: whatever `Solve` returns, when the error is set the
map is nil and the total is 0, and when the error is nil the map is present and
non-empty and the total is positive. -/
theorem Solve_no_partial (items : Int) (sizes : List Int) (r : SolveResult)
    (h : Solve items sizes = .ok r) :
    (r.err ≠ none → r.counts = none ∧ r.total = 0) ∧
    (r.err = none → ∃ m : CountMap, r.counts = some m ∧ m ≠ [] ∧ 0 < r.total) := by
  constructor
  · intro he
    rcases Solve_cases items sizes with h1 | h1 | h1 | ⟨hi, hne, hpos⟩
    · rw [h1] at h; cases h; exact ⟨rfl, rfl⟩
    · rw [h1] at h; cases h; exact ⟨rfl, rfl⟩
    · rw [h1] at h; cases h; exact ⟨rfl, rfl⟩
    · obtain ⟨_, _, _, _, _, _, _, _, hcase⟩ := Solve_stages items sizes hi hne hpos
      rcases hcase with ⟨e, _, he'⟩ | ⟨_, _, _, _, _, _, _, _, hres⟩
      · rw [he'] at h; cases h
      · rcases hres with ⟨_, hS⟩ | ⟨_, _, hS⟩
        · rw [hS] at h; cases h; exact ⟨rfl, rfl⟩
        · rw [hS] at h; cases h; exact absurd rfl he
  · intro he
    obtain ⟨hi, _⟩ := Solve_ok items sizes r h he
    obtain ⟨path, hr, _, hp, hge, _⟩ := Solve_path items sizes r h he
    subst hr
    refine ⟨_, rfl, foldl_incr_ne_nil path hp, ?_⟩
    show 0 < path.sum
    omega

theorem Solve_no_partial_witness :
    ((SolveResult.mk none 0 (some errSize)).err ≠ none →
      (SolveResult.mk none 0 (some errSize)).counts = none ∧
      (SolveResult.mk none 0 (some errSize)).total = 0) ∧
    ((SolveResult.mk none 0 (some errSize)).err = none →
      ∃ m : CountMap, (SolveResult.mk none 0 (some errSize)).counts = some m ∧ m ≠ [] ∧
        0 < (SolveResult.mk none 0 (some errSize)).total) :=
  Solve_no_partial 10 [5, 0] ⟨none, 0, some errSize⟩ (by decide)

/-- The pack list of a result overshoots `items` by less than any one size. -/
theorem overshoot_lt {items : Int} {sizes path : List Int} (hi : 0 < items)
    (hpos : ∀ x ∈ sizes, 0 < x)
    (hmin : ∀ l : List Int, Over sizes l → items ≤ l.sum → path.sum ≤ l.sum) :
    ∀ x ∈ sizes, path.sum - items < x := by
  intro x hx
  obtain ⟨k, hk1, hk2⟩ := exists_multiple hi (hpos x hx)
  have hrep : Over sizes (List.replicate k x) := by
    intro y hy
    rw [List.eq_of_mem_replicate hy]
    exact hx
  have hrsum : (List.replicate k x).sum = k * x := by
    rw [List.sum_replicate, nsmul_eq_mul]
  have := hmin _ hrep (by rw [hrsum]; exact hk1)
  rw [hrsum] at this
  omega

/-- C4, no-solution is unreachable: for `int` arguments `items > 0` and a
non-empty list of positive sizes, some sum of sizes lies between `items` and
`items + max(sizes) - 1`; so whatever `Solve` returns carries no error, in
particular not the error of the defensive branch, and a total that is such a
sum; and `Solve` does return when its table fits the bound of `makeslice`. -/
theorem Solve_no_NoSolution (items : Int) (sizes : List Int) (hi : 0 < items)
    (hne : sizes ≠ []) (hpos : ∀ x ∈ sizes, 0 < x) (hI : items ≤ MaxInt)
    (hM : ∀ x ∈ sizes, x ≤ MaxInt) :
    ∃ maxS : Int, maxS ∈ sizes ∧ (∀ x ∈ sizes, x ≤ maxS) ∧
      (∃ l : List Int, Over sizes l ∧ items ≤ l.sum ∧ l.sum ≤ items + maxS - 1) ∧
      (∀ r : SolveResult, Solve items sizes = .ok r →
        r.err = none ∧ r.err ≠ some errNoSolution ∧
        items ≤ r.total ∧ r.total ≤ items + maxS - 1 ∧
        ∃ l : List Int, Over sizes l ∧ l.sum = r.total) ∧
      Solve items sizes ≠ .ok ⟨none, 0, some errNoSolution⟩ ∧
      (items + maxS ≤ maxLen → ∃ r : SolveResult, Solve items sizes = .ok r) := by
  obtain ⟨maxS, hm, hmax, hcase⟩ := Solve_int items sizes hi hne hpos hI hM
  have hmpos := hpos maxS hm
  have hall : ∀ r : SolveResult, Solve items sizes = .ok r →
      r.err = none ∧ r.err ≠ some errNoSolution ∧
      items ≤ r.total ∧ r.total ≤ items + maxS - 1 ∧
      ∃ l : List Int, Over sizes l ∧ l.sum = r.total := by
    intro r hr
    rcases hcase with ⟨he, _⟩ | ⟨r0, hS, he0, _, _⟩
    · rw [he] at hr; cases hr
    · rw [hS] at hr
      have hrr := Except.ok.inj hr
      subst hrr
      obtain ⟨path, hp, hov, _, hge, hmin, _⟩ := Solve_path items sizes r0 hS he0
      have hlt := overshoot_lt hi hpos hmin maxS hm
      subst hp
      refine ⟨rfl, by simp, hge, ?_, path, hov, rfl⟩
      show path.sum ≤ items + maxS - 1
      omega
  refine ⟨maxS, hm, hmax, ?_, hall, ?_, fun hfit => ?_⟩
  · obtain ⟨k, hk1, hk2⟩ := exists_multiple hi hmpos
    refine ⟨List.replicate k maxS, ?_, ?_, ?_⟩
    · intro y hy
      rw [List.eq_of_mem_replicate hy]
      exact hm
    · rw [List.sum_replicate, nsmul_eq_mul]; exact hk1
    · rw [List.sum_replicate, nsmul_eq_mul]; exact hk2
  · intro hc
    have := (hall _ hc).1
    simp at this
  · obtain ⟨r, hr, _⟩ := Solve_fits items sizes hi hne hpos maxS hm hmax hfit
    exact ⟨r, hr⟩

theorem Solve_no_NoSolution_witness :
    ∃ maxS : Int, maxS ∈ [3, 5] ∧ (∀ x ∈ [3, 5], x ≤ maxS) ∧
      (∃ l : List Int, Over [3, 5] l ∧ 7 ≤ l.sum ∧ l.sum ≤ 7 + maxS - 1) ∧
      (∀ r : SolveResult, Solve 7 [3, 5] = .ok r →
        r.err = none ∧ r.err ≠ some errNoSolution ∧
        7 ≤ r.total ∧ r.total ≤ 7 + maxS - 1 ∧
        ∃ l : List Int, Over [3, 5] l ∧ l.sum = r.total) ∧
      Solve 7 [3, 5] ≠ .ok ⟨none, 0, some errNoSolution⟩ ∧
      (7 + maxS ≤ maxLen → ∃ r : SolveResult, Solve 7 [3, 5] = .ok r) :=
  Solve_no_NoSolution 7 [3, 5] (by decide) (by decide) (by decide) (by decide) (by decide)

/-- C13, the tie-break: in every result that `Solve` returns without error,
whatever list of sizes sums to the returned total with the least possible number
of packs, every key of the returned map is at most some pack of that list, so
the largest pack of the returned map is the smallest that a least-pack
decomposition can have; and `Solve(4, [1,2,3])` returns `{2:2}`. -/
theorem Solve_tie_break :
    (∀ (items : Int) (sizes : List Int) (r : SolveResult), Solve items sizes = .ok r →
      r.err = none →
      ∃ m : CountMap, r.counts = some m ∧ m.total = r.total ∧
        (∀ l : List Int, Over sizes l → l.sum = r.total → m.packs ≤ l.length) ∧
        ∀ l : List Int, Over sizes l → l.sum = r.total →
          (∀ l' : List Int, Over sizes l' → l'.sum = r.total → l.length ≤ l'.length) →
          ∀ k ∈ m.keys, ∃ x ∈ l, k ≤ x) ∧
    Solve 4 [1, 2, 3] = .ok ⟨some [(2, 2)], 4, none⟩ := by
  refine ⟨fun items sizes r h he => ?_, by decide⟩
  obtain ⟨path, hr, hov, _, _, _, hmin, htie⟩ := Solve_path items sizes r h he
  subst hr
  refine ⟨_, rfl, foldl_incr_total_nil path, fun l hl hsum => ?_, fun l hl hsum hleast k hk => ?_⟩
  · rw [foldl_incr_packs_nil]
    exact_mod_cast hmin l hl hsum
  · exact htie l hl hsum (hleast path hov rfl) k ((foldl_incr_keys_nil path k).1 hk)

theorem Solve_tie_break_witness :
    ∃ m : CountMap, (SolveResult.mk (some [(2, 2)]) 4 none).counts = some m ∧
      m.total = (SolveResult.mk (some [(2, 2)]) 4 none).total ∧
      (∀ l : List Int, Over [1, 2, 3] l →
        l.sum = (SolveResult.mk (some [(2, 2)]) 4 none).total → m.packs ≤ l.length) ∧
      ∀ l : List Int, Over [1, 2, 3] l →
        l.sum = (SolveResult.mk (some [(2, 2)]) 4 none).total →
        (∀ l' : List Int, Over [1, 2, 3] l' →
          l'.sum = (SolveResult.mk (some [(2, 2)]) 4 none).total → l.length ≤ l'.length) →
        ∀ k ∈ m.keys, ∃ x ∈ l, k ≤ x :=
  Solve_tie_break.1 4 [1, 2, 3] ⟨some [(2, 2)], 4, none⟩ (by decide) rfl

/-- C14, the overshoot: in every result that `Solve` returns without error the
total is at least `items` and exceeds it by less than every size, hence by less
than the smallest one; and when `items` itself is a sum of sizes the total is
`items`. -/
theorem Solve_overshoot (items : Int) (sizes : List Int) (r : SolveResult)
    (h : Solve items sizes = .ok r) (he : r.err = none) :
    items ≤ r.total ∧ (∀ x ∈ sizes, r.total - items < x) ∧
    ((∃ l : List Int, Over sizes l ∧ l.sum = items) → r.total = items) := by
  obtain ⟨hi, _, hpos, _⟩ := Solve_ok items sizes r h he
  obtain ⟨path, hr, _, _, hge, hmin, _⟩ := Solve_path items sizes r h he
  subst hr
  refine ⟨hge, overshoot_lt hi hpos hmin, ?_⟩
  rintro ⟨l, hl, hsum⟩
  have := hmin l hl (by omega)
  show path.sum = items
  omega

theorem Solve_overshoot_witness :
    7 ≤ (SolveResult.mk (some [(5, 1), (3, 1)]) 8 none).total ∧
    (∀ x ∈ [3, 5], (SolveResult.mk (some [(5, 1), (3, 1)]) 8 none).total - 7 < x) ∧
    ((∃ l : List Int, Over [3, 5] l ∧ l.sum = 7) →
      (SolveResult.mk (some [(5, 1), (3, 1)]) 8 none).total = 7) :=
  Solve_overshoot 7 [3, 5] ⟨some [(5, 1), (3, 1)], 8, none⟩ (by decide) rfl

/-! ## The contract of `Solve`: the loops -/

/-- C11, the reachability table: for `int` arguments of a valid request, with
`maxS` the last element of the sorted catalog, the double loop is reached and
finishes whenever `items + maxS` entries fit the bound of `makeslice`; and
whenever it finishes, `limit = items + max(sizes) - 1` was computed without
wrap, the table `dp` has `limit + 1` entries, and for every `0 <= t <= limit`:
`dp[t].OK` holds exactly when `t` is a sum of sizes; if so `dp[t].Packs` is the
least number of packs of such a sum; and for `t > 0` `dp[t].Size` is a size,
`dp[t].Prev = t - dp[t].Size >= 0`, `dp[dp[t].Prev].OK` and
`dp[t].Packs = dp[dp[t].Prev].Packs + 1`, all read in the final table. -/
theorem table_invariant (items : Int) (sizes : List Int) (hi : 0 < items) (hne : sizes ≠ [])
    (hpos : ∀ x ∈ sizes, 0 < x) (hI : items ≤ MaxInt) (hM : ∀ x ∈ sizes, x ≤ MaxInt) :
    ∃ (b : List Int) (maxS : Int),
      sanitize sizes [] [] = some b ∧
      index (sortInts b) (((sortInts b).length : Int) - 1) = .ok maxS ∧
      maxS ∈ sizes ∧ (∀ x ∈ sizes, x ≤ maxS) ∧
      (items + maxS ≤ maxLen →
        ∃ dp, buildTable (wrap (items + maxS - 1)) (sortInts b) = .ok dp) ∧
      ∀ dp : List state, buildTable (wrap (items + maxS - 1)) (sortInts b) = .ok dp →
        wrap (items + maxS - 1) = items + maxS - 1 ∧
        (dp.length : Int) = items + maxS - 1 + 1 ∧
        ∀ t, 0 ≤ t → t ≤ items + maxS - 1 →
          index dp t = .ok (rd dp t) ∧
          ((rd dp t).OK = true ↔ ∃ l : List Int, Over sizes l ∧ l.sum = t) ∧
          ((rd dp t).OK = true →
            (∃ l : List Int, Over sizes l ∧ l.sum = t ∧ (l.length : Int) = (rd dp t).Packs) ∧
            (∀ l : List Int, Over sizes l → l.sum = t → (rd dp t).Packs ≤ l.length) ∧
            (0 < t →
              (rd dp t).Size ∈ sizes ∧ (rd dp t).Prev = t - (rd dp t).Size ∧
              0 ≤ (rd dp t).Prev ∧ (rd dp (rd dp t).Prev).OK = true ∧
              (rd dp t).Packs = (rd dp (rd dp t).Prev).Packs + 1)) := by
  obtain ⟨b, maxS, hb, hidx, hbm, hm, hmax⟩ := catalog_spec sizes hne hpos
  have hmpos := hpos maxS hm
  have hbpos : ∀ x ∈ sortInts b, 0 < x := fun x hx => hpos x ((hbm x).1 hx)
  obtain ⟨r0, r1⟩ := wrap_range (items + maxS - 1)
  refine ⟨b, maxS, hb, hidx, hm, hmax, fun hfit => ?_, fun dp hdp => ?_⟩
  · have hex : wrap (items + maxS - 1) = items + maxS - 1 :=
      wrap_id (by omega) (by unfold maxLen at hfit; omega)
    rw [hex]
    obtain ⟨dp, hdp, _⟩ :=
      @buildTable_spec (items + maxS - 1) (by omega) (by omega) (sortInts b) hbpos
    exact ⟨dp, hdp⟩
  obtain ⟨hl, hbd⟩ := buildTable_bounds r0 r1 hdp
  have hex := limit_exact hi hmpos hI (hM maxS hm) hl
  obtain ⟨dp', hdp', hinv0⟩ := buildTable_spec hl hbd (sortInts b) hbpos
  rw [hdp] at hdp'
  have hdd := Except.ok.inj hdp'
  subst hdd
  have hinv : Inv sizes (wrap (items + maxS - 1)) dp := hinv0.congr hbm
  rw [hex] at hinv
  refine ⟨hex, hinv.len, fun t h0 hl' => ?_⟩
  refine ⟨index_rd dp t h0 (by have := hinv.len; omega), hinv.reach_iff h0 hl', fun hok => ?_⟩
  refine ⟨hinv.exists_list h0 hl' hok, fun l hov hsum => ?_, fun htpos => ?_⟩
  · have := (hinv.opt l hov (by omega)).2
    rw [hsum] at this
    exact this
  · obtain ⟨b1, b2, b3, b4, b5, _⟩ := hinv.back t htpos hl' hok
    exact ⟨b1, b4, by omega, b5, hinv.back_eq htpos hl' hok⟩

theorem table_invariant_witness :
    ∃ (b : List Int) (maxS : Int),
      sanitize [3, 5] [] [] = some b ∧
      index (sortInts b) (((sortInts b).length : Int) - 1) = .ok maxS ∧
      maxS ∈ [3, 5] ∧ (∀ x ∈ [3, 5], x ≤ maxS) ∧
      (7 + maxS ≤ maxLen →
        ∃ dp, buildTable (wrap (7 + maxS - 1)) (sortInts b) = .ok dp) ∧
      ∀ dp : List state, buildTable (wrap (7 + maxS - 1)) (sortInts b) = .ok dp →
        wrap (7 + maxS - 1) = 7 + maxS - 1 ∧
        (dp.length : Int) = 7 + maxS - 1 + 1 ∧
        ∀ t, 0 ≤ t → t ≤ 7 + maxS - 1 →
          index dp t = .ok (rd dp t) ∧
          ((rd dp t).OK = true ↔ ∃ l : List Int, Over [3, 5] l ∧ l.sum = t) ∧
          ((rd dp t).OK = true →
            (∃ l : List Int, Over [3, 5] l ∧ l.sum = t ∧ (l.length : Int) = (rd dp t).Packs) ∧
            (∀ l : List Int, Over [3, 5] l → l.sum = t → (rd dp t).Packs ≤ l.length) ∧
            (0 < t →
              (rd dp t).Size ∈ [3, 5] ∧ (rd dp t).Prev = t - (rd dp t).Size ∧
              0 ≤ (rd dp t).Prev ∧ (rd dp (rd dp t).Prev).OK = true ∧
              (rd dp t).Packs = (rd dp (rd dp t).Prev).Packs + 1)) :=
  table_invariant 7 [3, 5] (by decide) (by decide) (by decide) (by decide) (by decide)

/-- The intermediate values of a call are determined by its arguments. -/
theorem Reach.unique {items : Int} {sizes sb sb' : List Int} {maxS maxS' : Int}
    {dp dp' : List state} {best best' : Int × Int}
    (h : Reach items sizes sb maxS dp best) (h' : Reach items sizes sb' maxS' dp' best') :
    sb = sb' ∧ maxS = maxS' ∧ dp = dp' ∧ best = best' := by
  obtain ⟨b, hb, rfl⟩ := h.bucket
  obtain ⟨b', hb', rfl⟩ := h'.bucket
  rw [hb] at hb'
  have hbb := Option.some.inj hb'
  subst hbb
  have ht := h.top
  rw [h'.top] at ht
  have hmm := Except.ok.inj ht
  subst hmm
  have hd := h.table
  rw [h'.table] at hd
  have hdd := Except.ok.inj hd
  subst hdd
  have hc := h.choice
  rw [h'.choice] at hc
  have hcc := Except.ok.inj hc
  exact ⟨rfl, rfl, rfl, hcc.symm⟩

/-- C16, the reconstruction terminates: when a valid call has built its table and
selected a total `bestS`, the back-pointer walk from `bestS` returns the map
that `Solve` returns; every `cur` it visits lies in the table, is marked, has a
positive `Size` and `0 <= dp[cur].Prev < cur`; and it has exactly
`dp[bestS].Packs` iterations: the loop returns with any allowance of at least
that many iterations and does not finish with fewer. -/
theorem reconstruct_terminates (items : Int) (sizes : List Int) (hi : 0 < items)
    (hne : sizes ≠ []) (hpos : ∀ x ∈ sizes, 0 < x)
    (sizeBucket : List Int) (maxS : Int) (dp : List state) (best : Int × Int)
    (hreach : Reach items sizes sizeBucket maxS dp best) (hfound : best.1 ≠ -1) :
    ∃ counts : CountMap,
      reconstruct dp best.1.toNat best.1 [] = .ok counts ∧
      Solve items sizes = .ok ⟨some counts, best.1, none⟩ ∧
      (∀ cur ∈ walk dp best.1.toNat best.1,
        0 < cur ∧ cur ≤ wrap (items + maxS - 1) ∧ index dp cur = .ok (rd dp cur) ∧
        (rd dp cur).OK = true ∧ 0 < (rd dp cur).Size ∧
        0 ≤ (rd dp cur).Prev ∧ (rd dp cur).Prev < cur) ∧
      ((walk dp best.1.toNat best.1).length : Int) = (rd dp best.1).Packs ∧
      (∀ fuel : Nat, (rd dp best.1).Packs ≤ fuel →
        reconstruct dp fuel best.1 [] = .ok counts) ∧
      (∀ fuel : Nat, (fuel : Int) < (rd dp best.1).Packs →
        reconstruct dp fuel best.1 [] = .error .outOfFuel) := by
  obtain ⟨sb', maxS', hbk, hidx', _, _, _, _, hcase⟩ := Solve_stages items sizes hi hne hpos
  rcases hcase with ⟨e, hbt, _⟩ | ⟨dp', best', hreach', hl, hbd, hinv, _, hfh, hres⟩
  · obtain ⟨b, hb, hsb⟩ := hreach.bucket
    obtain ⟨b', hb', hsb'⟩ := hbk
    rw [hb] at hb'
    have hbb := Option.some.inj hb'
    rw [← hbb] at hsb'
    rw [hsb', ← hsb] at hidx' hbt
    have ht := hreach.top
    rw [hidx'] at ht
    have hmm := Except.ok.inj ht
    rw [hmm, hreach.table] at hbt
    cases hbt
  obtain ⟨e1, e2, e3, e4⟩ := hreach.unique hreach'
  subst e1 e2 e3 e4
  rcases hres with ⟨hb, _⟩ | ⟨_, hrec, hS⟩
  · exact absurd hb hfound
  rcases hfh with ⟨f1, _⟩ | ⟨f1, f2, f3, _, _⟩
  · exact absurd f1 hfound
  have hb0 : 0 ≤ best.1 := by omega
  obtain ⟨_, w1, _, _, _⟩ := reconstruct_walk hinv best.1.toNat best.1 [] hb0 f2 f3 le_rfl
  refine ⟨_, hrec, hS, fun cur hc => ?_, hinv.walk_length hb0 f2 f3, fun fuel hf => ?_,
    fun fuel hf => ?_⟩
  · obtain ⟨a1, a2, a3, a4, a5⟩ := w1 cur hc
    obtain ⟨_, b2, _⟩ := hinv.back cur a1 (by omega) a3
    exact ⟨a1, by omega, index_rd dp cur a1.le (by have := hinv.len; omega), a3, b2, a4, a5⟩
  · rw [← hrec]
    refine reconstruct_fuel hinv fuel best.1.toNat best.1 [] hb0 f2 f3 hf ?_
    have := hinv.packs_le hpos hb0 f2 f3
    omega
  · exact reconstruct_short hinv fuel best.1 [] hb0 f2 f3 hf

theorem reconstruct_terminates_witness :
    ∃ (dp : List state) (counts : CountMap),
      Reach 7 [3, 5] [3, 5] 5 dp (8, 2) ∧
      reconstruct dp (8 : Int).toNat 8 [] = .ok counts ∧
      Solve 7 [3, 5] = .ok ⟨some counts, 8, none⟩ ∧
      (∀ cur ∈ walk dp (8 : Int).toNat 8,
        0 < cur ∧ cur ≤ wrap (7 + 5 - 1) ∧ index dp cur = .ok (rd dp cur) ∧
        (rd dp cur).OK = true ∧ 0 < (rd dp cur).Size ∧
        0 ≤ (rd dp cur).Prev ∧ (rd dp cur).Prev < cur) ∧
      ((walk dp (8 : Int).toNat 8).length : Int) = (rd dp 8).Packs ∧
      (∀ fuel : Nat, (rd dp 8).Packs ≤ fuel → reconstruct dp fuel 8 [] = .ok counts) ∧
      (∀ fuel : Nat, (fuel : Int) < (rd dp 8).Packs →
        reconstruct dp fuel 8 [] = .error .outOfFuel) :=
  have hreach : Reach 7 [3, 5] [3, 5] 5
      [⟨true, 0, -1, 0⟩, ⟨false, 0, 0, 0⟩, ⟨false, 0, 0, 0⟩, ⟨true, 1, 0, 3⟩,
        ⟨false, 0, 0, 0⟩, ⟨true, 1, 0, 5⟩, ⟨true, 2, 3, 3⟩, ⟨false, 0, 0, 0⟩,
        ⟨true, 2, 3, 5⟩, ⟨true, 3, 6, 3⟩, ⟨true, 2, 5, 5⟩, ⟨true, 3, 6, 5⟩] (8, 2) :=
    ⟨⟨[3, 5], rfl, rfl⟩, rfl, rfl, rfl⟩
  let ⟨counts, h⟩ := reconstruct_terminates 7 [3, 5] (by decide) (by decide) (by decide)
    [3, 5] 5 _ (8, 2) hreach (by decide)
  ⟨_, counts, hreach, h⟩

/-! ## The contract of `Solve`: the scenarios of the default catalog -/

/-- On the default catalog: the walk of `Solve`, its total against one given
pack list, and its length against it when the totals are equal. -/
theorem Solve_default (items : Int) (hi : 0 < items) (hfit : items + 5000 ≤ maxLen)
    (l0 : List Int) (h0 : Over [250, 500, 1000, 2000, 5000] l0) (hge : items ≤ l0.sum) :
    ∃ path : List Int,
      Solve items [250, 500, 1000, 2000, 5000] =
        .ok ⟨some (path.foldl CountMap.incr []), path.sum, none⟩ ∧
      Over [250, 500, 1000, 2000, 5000] path ∧ items ≤ path.sum ∧ path.sum ≤ l0.sum ∧
      (l0.sum = path.sum → (path.length : Int) ≤ l0.length) := by
  obtain ⟨r, hS, he⟩ := Solve_fits items [250, 500, 1000, 2000, 5000] hi (by decide)
    (by decide) 5000 (by decide) (by decide) hfit
  obtain ⟨path, hr, hov, _, hge', hmin, hlen, _⟩ :=
    Solve_path items [250, 500, 1000, 2000, 5000] r hS he
  subst hr
  refine ⟨path, hS, hov, hge', hmin l0 h0 hge, fun he' => ?_⟩
  exact_mod_cast hlen l0 h0 he'

theorem scenario_1 : ∃ m : CountMap,
    Solve 1 [250, 500, 1000, 2000, 5000] = .ok ⟨some m, 250, none⟩ ∧ m.Same [(250, 1)] := by
  obtain ⟨path, hS, hov, h1, h2, _⟩ :=
    Solve_default 1 (by decide) (by decide) [250] (by unfold Over; decide) (by decide)
  obtain ⟨e1, e2⟩ := sum_length_default path hov
  simp only [List.sum_cons, List.sum_nil, add_zero] at h2
  have hsum : path.sum = 250 := by omega
  rw [hsum] at hS
  refine ⟨_, hS, Same_of_count path _ hov _ ?_ ?_ ?_⟩
  · intro s hs
    simp only [List.mem_cons, List.mem_singleton, List.not_mem_nil, or_false] at hs
    rcases hs with rfl | rfl | rfl | rfl | rfl <;>
      simp [CountMap.get, List.lookup] <;> omega
  · intro k hk
    simp only [CountMap.keys, List.map_cons, List.map_nil, List.mem_cons,
      List.mem_singleton, List.not_mem_nil, or_false] at hk
    subst hk
    simp [CountMap.get, List.lookup]
  · intro k hk
    simp only [CountMap.keys, List.map_cons, List.map_nil, List.mem_cons,
      List.mem_singleton, List.not_mem_nil, or_false, not_or] at hk
    have a1 : (k == 250) = false := by simpa using hk
    simp [CountMap.get, List.lookup, a1]

theorem scenario_2 : ∃ m : CountMap,
    Solve 250 [250, 500, 1000, 2000, 5000] = .ok ⟨some m, 250, none⟩ ∧ m.Same [(250, 1)] := by
  obtain ⟨path, hS, hov, h1, h2, _⟩ :=
    Solve_default 250 (by decide) (by decide) [250] (by unfold Over; decide) (by decide)
  obtain ⟨e1, e2⟩ := sum_length_default path hov
  simp only [List.sum_cons, List.sum_nil, add_zero] at h2
  have hsum : path.sum = 250 := by omega
  rw [hsum] at hS
  refine ⟨_, hS, Same_of_count path _ hov _ ?_ ?_ ?_⟩
  · intro s hs
    simp only [List.mem_cons, List.mem_singleton, List.not_mem_nil, or_false] at hs
    rcases hs with rfl | rfl | rfl | rfl | rfl <;>
      simp [CountMap.get, List.lookup] <;> omega
  · intro k hk
    simp only [CountMap.keys, List.map_cons, List.map_nil, List.mem_cons,
      List.mem_singleton, List.not_mem_nil, or_false] at hk
    subst hk
    simp [CountMap.get, List.lookup]
  · intro k hk
    simp only [CountMap.keys, List.map_cons, List.map_nil, List.mem_cons,
      List.mem_singleton, List.not_mem_nil, or_false, not_or] at hk
    have a1 : (k == 250) = false := by simpa using hk
    simp [CountMap.get, List.lookup, a1]

theorem scenario_3 : ∃ m : CountMap,
    Solve 251 [250, 500, 1000, 2000, 5000] = .ok ⟨some m, 500, none⟩ ∧ m.Same [(500, 1)] := by
  obtain ⟨path, hS, hov, h1, h2, h3⟩ :=
    Solve_default 251 (by decide) (by decide) [500] (by unfold Over; decide) (by decide)
  obtain ⟨e1, e2⟩ := sum_length_default path hov
  simp only [List.sum_cons, List.sum_nil, add_zero] at h2 h3
  have hsum : path.sum = 500 := by omega
  have hlen := h3 (by omega)
  simp only [List.length_cons, List.length_nil] at hlen
  push_cast at hlen
  rw [hsum] at hS
  refine ⟨_, hS, Same_of_count path _ hov _ ?_ ?_ ?_⟩
  · intro s hs
    simp only [List.mem_cons, List.mem_singleton, List.not_mem_nil, or_false] at hs
    rcases hs with rfl | rfl | rfl | rfl | rfl <;>
      simp [CountMap.get, List.lookup] <;> omega
  · intro k hk
    simp only [CountMap.keys, List.map_cons, List.map_nil, List.mem_cons,
      List.mem_singleton, List.not_mem_nil, or_false] at hk
    subst hk
    simp [CountMap.get, List.lookup]
  · intro k hk
    simp only [CountMap.keys, List.map_cons, List.map_nil, List.mem_cons,
      List.mem_singleton, List.not_mem_nil, or_false, not_or] at hk
    have a1 : (k == 500) = false := by simpa using hk
    simp [CountMap.get, List.lookup, a1]

theorem scenario_4 : ∃ m : CountMap,
    Solve 501 [250, 500, 1000, 2000, 5000] = .ok ⟨some m, 750, none⟩ ∧
      m.Same [(500, 1), (250, 1)] := by
  obtain ⟨path, hS, hov, h1, h2, h3⟩ :=
    Solve_default 501 (by decide) (by decide) [500, 250] (by unfold Over; decide) (by decide)
  obtain ⟨e1, e2⟩ := sum_length_default path hov
  simp only [List.sum_cons, List.sum_nil, add_zero] at h2 h3
  have hsum : path.sum = 750 := by omega
  have hlen := h3 (by omega)
  simp only [List.length_cons, List.length_nil] at hlen
  push_cast at hlen
  rw [hsum] at hS
  refine ⟨_, hS, Same_of_count path _ hov _ ?_ ?_ ?_⟩
  · intro s hs
    simp only [List.mem_cons, List.mem_singleton, List.not_mem_nil, or_false] at hs
    rcases hs with rfl | rfl | rfl | rfl | rfl <;>
      simp [CountMap.get, List.lookup] <;> omega
  · intro k hk
    simp only [CountMap.keys, List.map_cons, List.map_nil, List.mem_cons,
      List.mem_singleton, List.not_mem_nil, or_false] at hk
    rcases hk with rfl | rfl <;> simp [CountMap.get, List.lookup]
  · intro k hk
    simp only [CountMap.keys, List.map_cons, List.map_nil, List.mem_cons,
      List.mem_singleton, List.not_mem_nil, or_false, not_or] at hk
    obtain ⟨a1, a2⟩ := hk
    have b1 : (k == 500) = false := by simpa using a1
    have b2 : (k == 250) = false := by simpa using a2
    simp [CountMap.get, List.lookup, b1, b2]

theorem scenario_5 : ∃ m : CountMap,
    Solve 12001 [250, 500, 1000, 2000, 5000] = .ok ⟨some m, 12250, none⟩ ∧
      m.Same [(5000, 2), (2000, 1), (250, 1)] := by
  obtain ⟨path, hS, hov, h1, h2, h3⟩ :=
    Solve_default 12001 (by decide) (by decide) [5000, 5000, 2000, 250] (by unfold Over; decide)
      (by decide)
  obtain ⟨e1, e2⟩ := sum_length_default path hov
  simp only [List.sum_cons, List.sum_nil, add_zero] at h2 h3
  have hsum : path.sum = 12250 := by omega
  have hlen := h3 (by omega)
  simp only [List.length_cons, List.length_nil] at hlen
  push_cast at hlen
  rw [hsum] at hS
  refine ⟨_, hS, Same_of_count path _ hov _ ?_ ?_ ?_⟩
  · intro s hs
    simp only [List.mem_cons, List.mem_singleton, List.not_mem_nil, or_false] at hs
    rcases hs with rfl | rfl | rfl | rfl | rfl <;>
      simp [CountMap.get, List.lookup] <;> omega
  · intro k hk
    simp only [CountMap.keys, List.map_cons, List.map_nil, List.mem_cons,
      List.mem_singleton, List.not_mem_nil, or_false] at hk
    rcases hk with rfl | rfl | rfl <;> simp [CountMap.get, List.lookup]
  · intro k hk
    simp only [CountMap.keys, List.map_cons, List.map_nil, List.mem_cons,
      List.mem_singleton, List.not_mem_nil, or_false, not_or] at hk
    obtain ⟨a1, a2, a3⟩ := hk
    have b1 : (k == 5000) = false := by simpa using a1
    have b2 : (k == 2000) = false := by simpa using a2
    have b3 : (k == 250) = false := by simpa using a3
    simp [CountMap.get, List.lookup, b1, b2, b3]

/-- C7, the concrete scenarios: with sizes `[250, 500, 1000, 2000, 5000]`,
`Solve` returns no error and: for 1 item total 250 and `{250:1}`; for 250 items
total 250 and `{250:1}`; for 251 items total 500 and `{500:1}`; for 501 items
total 750 and `{500:1, 250:1}`; for 12001 items total 12250 and
`{5000:2, 2000:1, 250:1}`; the map has exactly these keys and values. -/
theorem Solve_scenarios :
    (∃ m : CountMap, Solve 1 [250, 500, 1000, 2000, 5000] = .ok ⟨some m, 250, none⟩ ∧
      m.Same [(250, 1)]) ∧
    (∃ m : CountMap, Solve 250 [250, 500, 1000, 2000, 5000] = .ok ⟨some m, 250, none⟩ ∧
      m.Same [(250, 1)]) ∧
    (∃ m : CountMap, Solve 251 [250, 500, 1000, 2000, 5000] = .ok ⟨some m, 500, none⟩ ∧
      m.Same [(500, 1)]) ∧
    (∃ m : CountMap, Solve 501 [250, 500, 1000, 2000, 5000] = .ok ⟨some m, 750, none⟩ ∧
      m.Same [(500, 1), (250, 1)]) ∧
    (∃ m : CountMap, Solve 12001 [250, 500, 1000, 2000, 5000] = .ok ⟨some m, 12250, none⟩ ∧
      m.Same [(5000, 2), (2000, 1), (250, 1)]) :=
  ⟨scenario_1, scenario_2, scenario_3, scenario_4, scenario_5⟩

/-! ## The contract of `Solve`: re-requesting the shipped quantity -/

/-- C15, idempotence on the achieved total: when `Solve(items, sizes)`, on `int`
sizes, returns the map `counts` and the total `total` with a nil error, the call
`Solve(total, sizes)` returns the same map and the same total with a nil error;
the only other outcome is that `make` refuses its larger table, which does not
happen when `total + max(sizes)` entries fit the bound of `makeslice`. -/
theorem Solve_idempotent (items : Int) (sizes : List Int) (counts : CountMap) (total : Int)
    (hM : ∀ x ∈ sizes, x ≤ MaxInt)
    (h : Solve items sizes = .ok ⟨some counts, total, none⟩) :
    (Solve total sizes = .ok ⟨some counts, total, none⟩ ∨
      Solve total sizes = .error .lenOutOfRange) ∧
    (∀ maxS ∈ sizes, (∀ x ∈ sizes, x ≤ maxS) → total + maxS ≤ maxLen →
      Solve total sizes = .ok ⟨some counts, total, none⟩) := by
  obtain ⟨hi, hne, hpos, sb1, maxS, dp1, best1, _, _, hm, hmax, hl1, hbd1, inv1, tie1,
    f1, f2, f3, _, hrec1, hr1⟩ := Solve_ok items sizes _ h rfl
  simp only [SolveResult.mk.injEq, Option.some.injEq, and_true] at hr1
  obtain ⟨hcounts, htotal⟩ := hr1
  subst htotal
  subst hcounts
  have hmpos := hpos maxS hm
  have hMm := hM maxS hm
  have hI : items ≤ MaxInt := by unfold maxLen at hbd1; unfold MaxInt; omega
  have e1 := limit_exact hi hmpos hI hMm hl1
  have ht : 0 < best1.1 := by omega
  have hT : best1.1 ≤ MaxInt := by unfold maxLen at hbd1; unfold MaxInt; omega
  obtain ⟨m2, hm2, hmax2, hcase⟩ := Solve_int best1.1 sizes ht hne hpos hT hM
  have hmm := max_unique hm hmax hm2 hmax2
  subst hmm
  have hsame : ∀ r2 : SolveResult, Solve best1.1 sizes = .ok r2 → r2.err = none →
      Solve best1.1 sizes =
        .ok ⟨some ((packsOf dp1 best1.1.toNat best1.1).foldl CountMap.incr []),
          best1.1, none⟩ := by
    intro r2 hS2 he2
    obtain ⟨_, _, _, sb2, m3, dp2, best2, _, _, hm3, hmax3, hl2, _, inv2, tie2,
      g1, g2, g3, g5, hrec2, hr2⟩ := Solve_ok best1.1 sizes r2 hS2 he2
    have hmm := max_unique hm hmax hm3 hmax3
    subst hmm
    have e2 := limit_exact ht hmpos hT hMm hl2
    have hok2 : (rd dp2 best1.1).OK = true :=
      (inv2.reach_iff ht.le (by omega)).2 ((inv1.reach_iff ht.le f2).1 f3)
    have hbest : best2.1 = best1.1 := by
      by_contra hne'
      have := g5 best1.1 le_rfl (by omega)
      rw [hok2] at this
      exact absurd this (by simp)
    have hrec := reconstruct_congr inv1 inv2.len
      (by omega : wrap (items + maxS - 1) ≤ wrap (best1.1 + maxS - 1))
      (fun u hu0 hul huok => table_unique inv1 tie1 inv2 tie2 hu0 hul (by omega) huok)
      best1.1.toNat best1.1 [] ht.le f2 f3
    rw [hbest, ← hrec, hrec1] at hrec2
    have := Except.ok.inj hrec2
    rw [hS2, hr2, hbest, ← this]
  rcases hcase with ⟨he, hlt⟩ | ⟨r2, hS2, he2, hfit, _⟩
  · exact ⟨Or.inr he, fun m hm' hmax' hfit' => by
      have := max_unique hm hmax hm' hmax'
      omega⟩
  · have := hsame r2 hS2 he2
    exact ⟨Or.inl this, fun _ _ _ _ => this⟩

theorem Solve_idempotent_witness :
    (Solve 8 [3, 5] = .ok ⟨some [(5, 1), (3, 1)], 8, none⟩ ∨
      Solve 8 [3, 5] = .error .lenOutOfRange) ∧
    (∀ maxS ∈ [3, 5], (∀ x ∈ [3, 5], x ≤ maxS) → 8 + maxS ≤ maxLen →
      Solve 8 [3, 5] = .ok ⟨some [(5, 1), (3, 1)], 8, none⟩) :=
  Solve_idempotent 7 [3, 5] [(5, 1), (3, 1)] 8 (by decide) (by decide)

/-! ## The contract of `Solve`: the largest requests -/

/-- Minimality of the total on every request whose table fits: for `items > 0`
and a non-empty list of positive sizes with `items + max(sizes)` entries within
the bound of `makeslice`, `Solve` succeeds with a total that is at least
`items`, is a sum of sizes, and no `t` with `items <= t < total` is such a sum. -/
theorem Solve_total_minimal_fits (items : Int) (sizes : List Int) (hi : 0 < items)
    (hne : sizes ≠ []) (hpos : ∀ x ∈ sizes, 0 < x) (maxS : Int) (hm : maxS ∈ sizes)
    (hmax : ∀ x ∈ sizes, x ≤ maxS) (hfit : items + maxS ≤ maxLen) :
    ∃ (m : CountMap) (total : Int), Solve items sizes = .ok ⟨some m, total, none⟩ ∧
      items ≤ total ∧ (∃ l : List Int, Over sizes l ∧ l.sum = total) ∧
      ∀ t, items ≤ t → t < total → ¬ ∃ l : List Int, Over sizes l ∧ l.sum = t := by
  obtain ⟨r, hS, he⟩ := Solve_fits items sizes hi hne hpos maxS hm hmax hfit
  obtain ⟨path, hr, hov, _, hge, hmin, _⟩ := Solve_path items sizes r hS he
  subst hr
  refine ⟨_, _, hS, hge, ⟨path, hov, rfl⟩, ?_⟩
  rintro t h1 h2 ⟨l, hl, hsum⟩
  have := hmin l hl (by omega)
  omega

/-- C1 at `items = math.MaxInt` and `sizes = [1]`, a request that passes
validation: `limit = items + 1 - 1` is `MaxInt`, the table length `limit + 1`
wraps to `-2^63`, `make` aborts with "makeslice: len out of range" and `Solve`
returns neither a total nor an error. -/
theorem Solve_aborts_at_MaxInt :
    wrap (9223372036854775807 + 1 - 1) = 9223372036854775807 ∧
    wrap (9223372036854775807 + 1) = -9223372036854775808 ∧
    make (-9223372036854775808) = .error .lenOutOfRange ∧
    Solve 9223372036854775807 [1] = .error .lenOutOfRange :=
  ⟨by decide, by decide, rfl, by decide⟩

/-- C17 at `items = math.MaxInt` and `sizes = [1]`: there
`items + max(sizes) - 1` is `MaxInt` and does not overflow, yet the length
`limit + 1` that `make` receives is `-2^63`, not `>= 1`, and the allocation
aborts. -/
theorem limit_succ_wraps :
    wrap (9223372036854775807 + 1 - 1) = 9223372036854775807 + 1 - 1 ∧
    9223372036854775807 + 1 - 1 ≤ MaxInt ∧
    ¬ 1 ≤ wrap (wrap (9223372036854775807 + 1 - 1) + 1) ∧
    buildTable (wrap (9223372036854775807 + 1 - 1)) [1] = .error .lenOutOfRange :=
  ⟨by decide, by decide, by decide, rfl⟩

/-- No slice access is out of range: on `int` arguments `Solve` never aborts on
an index; on a request that passes validation the sorted catalog is non-empty
when its last element is read; when `items + max(sizes)` does not overflow,
`limit` and `limit + 1` are computed without wrap and `limit + 1 >= 1` when
`make` is called; and whenever the table is allocated and filled it has
`limit + 1 >= 1` entries, every total the scan reads lies in `0 .. limit` and
every total the reconstruction reads lies in `1 .. limit`. -/
theorem Solve_no_fault (items : Int) (sizes : List Int) (hI : items ≤ MaxInt)
    (hM : ∀ x ∈ sizes, x ≤ MaxInt) :
    (Solve items sizes ≠ .error .indexOutOfRange ∧ Solve items sizes ≠ .error .outOfFuel) ∧
    (0 < items → sizes ≠ [] → (∀ x ∈ sizes, 0 < x) →
      ∃ (b : List Int) (maxS : Int), sanitize sizes [] [] = some b ∧ sortInts b ≠ [] ∧
        index (sortInts b) (((sortInts b).length : Int) - 1) = .ok maxS ∧
        maxS ∈ sizes ∧ (∀ x ∈ sizes, x ≤ maxS) ∧
        (items + maxS ≤ MaxInt →
          wrap (items + maxS - 1) = items + maxS - 1 ∧
          wrap (wrap (items + maxS - 1) + 1) = items + maxS ∧
          1 ≤ wrap (wrap (items + maxS - 1) + 1)) ∧
        ∀ (dp : List state) (best : Int × Int), Reach items sizes (sortInts b) maxS dp best →
          (dp.length : Int) = wrap (items + maxS - 1) + 1 ∧ 1 ≤ (dp.length : Int) ∧
          (∀ p ∈ chooseStates (wrap (items + maxS - 1)) dp
              (wrap (items + maxS - 1) + 1 - items).toNat items (-1, 0),
            0 ≤ p.1 ∧ p.1 ≤ wrap (items + maxS - 1)) ∧
          (∀ cur ∈ walk dp best.1.toNat best.1,
            0 < cur ∧ cur ≤ wrap (items + maxS - 1))) := by
  constructor
  · rcases Solve_cases items sizes with h1 | h1 | h1 | ⟨hi, hne, hpos⟩
    · rw [h1]; exact ⟨fun hc => (by cases hc), fun hc => (by cases hc)⟩
    · rw [h1]; exact ⟨fun hc => (by cases hc), fun hc => (by cases hc)⟩
    · rw [h1]; exact ⟨fun hc => (by cases hc), fun hc => (by cases hc)⟩
    · obtain ⟨_, _, _, hcase⟩ := Solve_int items sizes hi hne hpos hI hM
      rcases hcase with ⟨he, _⟩ | ⟨r, hS, _⟩
      · rw [he]; exact ⟨fun hc => (by cases hc), fun hc => (by cases hc)⟩
      · rw [hS]; exact ⟨fun hc => (by cases hc), fun hc => (by cases hc)⟩
  · intro hi hne hpos
    obtain ⟨b, maxS, hb, hidx, hbm, hm, hmax⟩ := catalog_spec sizes hne hpos
    have hmpos := hpos maxS hm
    refine ⟨b, maxS, hb, List.ne_nil_of_mem ((hbm maxS).2 hm), hidx, hm, hmax, fun hfit => ?_,
      fun dp best hreach => ?_⟩
    · unfold wrap MaxInt at *
      omega
    · obtain ⟨r0, r1⟩ := wrap_range (items + maxS - 1)
      obtain ⟨hl, hbd⟩ := buildTable_bounds r0 r1 hreach.table
      obtain ⟨dp', hdp', hinv0⟩ :=
        buildTable_spec hl hbd (sortInts b) (fun x hx => hpos x ((hbm x).1 hx))
      rw [hreach.table] at hdp'
      have hdd := Except.ok.inj hdp'
      subst hdd
      have hinv : Inv sizes (wrap (items + maxS - 1)) dp := hinv0.congr hbm
      refine ⟨hinv.len, by have := hinv.len; omega, fun p hp => ?_, fun cur hc => ?_⟩
      · obtain ⟨a1, a2, _⟩ :=
          chooseStates_spec hinv.len _ items (-1, 0) hi.le (Or.inl rfl) p hp
        exact ⟨a1, a2⟩
      · obtain ⟨best', hbest', hfh⟩ := chooseLoop_spec hinv.len
          (wrap (items + maxS - 1) + 1 - items).toNat items 0 hi.le le_rfl
        rw [hreach.choice] at hbest'
        have hbb := Except.ok.inj hbest'
        subst hbb
        rcases hfh with ⟨f1, _⟩ | ⟨f1, f2, f3, _, _⟩
        · rw [f1] at hc
          simp [walk] at hc
        · obtain ⟨_, w1, _⟩ :=
            reconstruct_walk hinv best.1.toNat best.1 [] (by omega) f2 f3 le_rfl
          obtain ⟨a1, a2, _⟩ := w1 cur hc
          exact ⟨a1, by omega⟩

theorem Solve_no_fault_witness :
    (Solve 7 [3, 5] ≠ .error .indexOutOfRange ∧ Solve 7 [3, 5] ≠ .error .outOfFuel) ∧
    ((0 : Int) < 7 → [(3 : Int), 5] ≠ [] → (∀ x ∈ [(3 : Int), 5], 0 < x) →
      ∃ (b : List Int) (maxS : Int), sanitize [3, 5] [] [] = some b ∧ sortInts b ≠ [] ∧
        index (sortInts b) (((sortInts b).length : Int) - 1) = .ok maxS ∧
        maxS ∈ [3, 5] ∧ (∀ x ∈ [3, 5], x ≤ maxS) ∧
        (7 + maxS ≤ MaxInt →
          wrap (7 + maxS - 1) = 7 + maxS - 1 ∧
          wrap (wrap (7 + maxS - 1) + 1) = 7 + maxS ∧
          1 ≤ wrap (wrap (7 + maxS - 1) + 1)) ∧
        ∀ (dp : List state) (best : Int × Int), Reach 7 [3, 5] (sortInts b) maxS dp best →
          (dp.length : Int) = wrap (7 + maxS - 1) + 1 ∧ 1 ≤ (dp.length : Int) ∧
          (∀ p ∈ chooseStates (wrap (7 + maxS - 1)) dp
              (wrap (7 + maxS - 1) + 1 - 7).toNat 7 (-1, 0),
            0 ≤ p.1 ∧ p.1 ≤ wrap (7 + maxS - 1)) ∧
          (∀ cur ∈ walk dp best.1.toNat best.1,
            0 < cur ∧ cur ≤ wrap (7 + maxS - 1))) :=
  Solve_no_fault 7 [3, 5] (by decide) (by decide)

end PackCalculator
